import Mathlib

/-!
Shallow embedding of `src/audio_processor/compilador.py` (a Spanish
natural-language-to-SQL translator) and proofs about its pipeline:
lexer, date recognizer, parser, operator normalizer, SQL generator,
Trie vocabulary, and the identifier corrector.

Strings are modelled as Lean `String`/`List Char`; the Python regexes
of the source are modelled as explicit character-level matchers.
-/

namespace Correccion

/-- ASCII digit, modelling the `\d` class of the source's regexes. -/
def esDigito (c : Char) : Bool := '0' ≤ c && c ≤ '9'

/-- Lower-case ASCII letter, modelling the `[a-z]` class. -/
def esMinuscula (c : Char) : Bool := 'a' ≤ c && c ≤ 'z'

/-- Python `str.lower()` restricted to the alphabet this program uses
(ASCII plus the accented Spanish letters). -/
def minusculaChar (c : Char) : Char :=
  if 'A' ≤ c && c ≤ 'Z' then Char.ofNat (c.toNat + 32)
  else if c = 'Á' then 'á' else if c = 'É' then 'é' else if c = 'Í' then 'í'
  else if c = 'Ó' then 'ó' else if c = 'Ú' then 'ú' else if c = 'Ñ' then 'ñ'
  else if c = 'Ü' then 'ü' else c

/-- Python `str.lower()` on a whole string. -/
def minuscula (s : String) : String := String.mk (s.data.map minusculaChar)

/-- Consume exactly `n` digit characters, returning the rest of the input. -/
def tomarDigitos : Nat → List Char → Option (List Char)
  | 0, l => some l
  | _ + 1, [] => none
  | n + 1, c :: l => if esDigito c then tomarDigitos n l else none

/-- Consume one literal character. -/
def tomarChar (a : Char) : List Char → Option (List Char)
  | [] => none
  | c :: l => if c = a then some l else none

/-- Consume a literal character sequence. -/
def tomarLit : List Char → List Char → Option (List Char)
  | [], l => some l
  | a :: as, l =>
    match tomarChar a l with
    | some r => tomarLit as r
    | none => none

/-- Consume a nonempty maximal run of `[a-z]` letters (the greedy `[a-z]+`). -/
def tomarMinusculas1 : List Char → Option (List Char)
  | [] => none
  | c :: r => if esMinuscula c then some (r.dropWhile esMinuscula) else none

/-- Full match of `\d{4}-\d{2}-\d{2}` (first entry of FORMATOS_FECHA). -/
def formato1 (l : List Char) : Bool :=
  (tomarDigitos 4 l >>= tomarChar '-' >>= tomarDigitos 2 >>= tomarChar '-'
    >>= tomarDigitos 2) = some []

/-- Full match of `\d{2}/\d{2}/\d{4}` (second entry of FORMATOS_FECHA). -/
def formato2 (l : List Char) : Bool :=
  (tomarDigitos 2 l >>= tomarChar '/' >>= tomarDigitos 2 >>= tomarChar '/'
    >>= tomarDigitos 4) = some []

/-- Full match of `\d{2}-\d{2}-\d{4}` (third entry of FORMATOS_FECHA). -/
def formato3 (l : List Char) : Bool :=
  (tomarDigitos 2 l >>= tomarChar '-' >>= tomarDigitos 2 >>= tomarChar '-'
    >>= tomarDigitos 4) = some []

/-- The part of `\d{1,2} de [a-z]+ de \d{4}` after the day digits. -/
def cola4 (l : List Char) : Option (List Char) :=
  tomarLit (String.data " de ") l >>= tomarMinusculas1
    >>= tomarLit (String.data " de ") >>= tomarDigitos 4

/-- Full match of `\d{1,2} de [a-z]+ de \d{4}` (fourth entry of FORMATOS_FECHA).
The alternation over the day width models the greedy-with-backtracking `\d{1,2}`. -/
def formato4 (l : List Char) : Bool :=
  ((tomarDigitos 2 l >>= cola4) = some []) || ((tomarDigitos 1 l >>= cola4) = some [])

/-- Model of `es_fecha` from compilador.py: lowercase the text and test the four
date formats by full-string match, in order. -/
def es_fecha (texto : String) : Bool :=
  let l := (minuscula texto).data
  formato1 l || formato2 l || formato3 l || formato4 l

/-- A lexical token: the `(tipo, valor)` pairs built by `analisis_lexico`. -/
structure Token where
  tipo : String
  valor : String
deriving DecidableEq, Repr

/-- Python `' '.join(partes)`. -/
def unirEspacios : List String → String
  | [] => ""
  | [s] => s
  | s :: r :: rs => s ++ " " ++ unirEspacios (r :: rs)

/-- Loop body of `unir_fecha`: keep appending token literals to `partes`,
joining with spaces, until the joined phrase is a date. -/
def unirFechaAux : List Token → List String → Nat → Option String × Nat
  | [], _, _ => (none, 0)
  | t :: r, partes, consumidos =>
    let partes' := partes ++ [t.valor]
    let posible := unirEspacios partes'
    if es_fecha posible then (some posible, consumidos + 1)
    else unirFechaAux r partes' (consumidos + 1)

/-- Model of `unir_fecha(tokens, inicio)` from compilador.py: returns the first
date-shaped join of token literals starting at `inicio`, together with the
number of tokens consumed; `(none, 0)` when no join matches. -/
def unir_fecha (tokens : List Token) (inicio : Nat) : Option String × Nat :=
  unirFechaAux (tokens.drop inicio) [] 0

/-- The characters of Python's `string.punctuation`. -/
def puntuacion : List Char :=
  ['!', '\"', '#', '$', '%', '&', '\'', '(', ')', '*', '+', ',', '-', '.', '/',
   ':', ';', '<', '=', '>', '?', '@', '[', '\\', ']', '^', '_', '\x60', '\x7b',
   '|', '\x7d', '~']

/-- Python `str.strip(chars)`: drop leading and trailing characters of the set. -/
def stripChars (cs : List Char) (l : List Char) : List Char :=
  ((l.dropWhile (cs.contains ·)).reverse.dropWhile (cs.contains ·)).reverse

/-- Python whitespace for `str.split()` on this program's inputs. -/
def esEspacio (c : Char) : Bool := c = ' ' || c = '\t' || c = '\n' || c = '\r'

/-- Python `str.split()` with no separator: split on whitespace runs,
dropping empty pieces. -/
def splitBlancosAux : List Char → List Char → List (List Char)
  | [], acc => if acc = [] then [] else [acc.reverse]
  | c :: r, acc =>
    if esEspacio c then
      if acc = [] then splitBlancosAux r [] else acc.reverse :: splitBlancosAux r []
    else splitBlancosAux r (c :: acc)

def splitBlancos (l : List Char) : List (List Char) := splitBlancosAux l []

/-- The `acciones` vocabulary of `analisis_lexico`. -/
def acciones : List String :=
  ["muéstrame", "muestrame", "mostrar", "muestra", "dame", "dámelos", "dámelas",
   "enséñame", "ensename", "quiero", "consultar", "consulta", "ver", "visualizar",
   "verifica", "explora", "lista", "listar", "recupera", "recuperar", "busca",
   "buscar", "obtén", "obtener", "extrae", "extraer", "filtra", "filtrar",
   "accede", "acceder", "selecciona", "seleccionar", "deseo", "necesito"]

/-- The `cuantificadores` vocabulary of `analisis_lexico`. -/
def cuantificadores : List String :=
  ["todos", "todas", "los", "las", "algunos", "algunas", "ninguno", "ninguna",
   "cada", "varios", "cualquier", "cualquiera", "muchos", "muchas", "pocos",
   "pocas", "uno", "una", "el", "la", "este", "esta", "estos", "estas"]

/-- The `conectores` vocabulary of `analisis_lexico`. -/
def conectores : List String :=
  ["que", "donde", "cuyo", "cuyos", "cual", "cuales", "si", "cuando", "mientras",
   "aunque", "y", "o"]

/-- The `operadores` symbol set of `analisis_lexico` / the parser. -/
def operadores : List String := ["=", ">", "<", ">=", "<=", "!=", "<>"]

/-- The entity-indicator vocabulary of `analisis_lexico`. -/
def indicadoresEntidad : List String :=
  ["tabla", "tablas", "base", "bases", "entidad", "entidades"]

/-- The attribute-indicator vocabulary of `analisis_lexico`. -/
def indicadoresAtributo : List String :=
  ["columna", "columnas", "campo", "campos", "atributo", "atributos"]

/-- Token classification of one normalized word, as in `analisis_lexico`. -/
def clasifica (palabra : String) : Token :=
  if acciones.contains palabra then ⟨"ACCION", palabra⟩
  else if cuantificadores.contains palabra then ⟨"CUANTIFICADOR", palabra⟩
  else if conectores.contains palabra then ⟨"CONECTOR", palabra⟩
  else if operadores.contains palabra then ⟨"OPERADOR", palabra⟩
  else if indicadoresEntidad.contains palabra then ⟨"INDICADOR_ENTIDAD", palabra⟩
  else if indicadoresAtributo.contains palabra then ⟨"INDICADOR_ATRIBUTO", palabra⟩
  else ⟨"PALABRA", palabra⟩

/-- Model of `analisis_lexico` from compilador.py: lowercase, split on whitespace,
strip surrounding punctuation, drop empties, classify. -/
def analisis_lexico (texto : String) : List Token :=
  let palabras := (splitBlancos (minuscula texto).data).map (stripChars puntuacion)
  ((palabras.filter (· ≠ [])).map (fun l => String.mk l)).map clasifica

/-- Python `\w` (word character for `\b` boundaries), for the alphabet in use. -/
def esCaracterPalabra (c : Char) : Bool :=
  esDigito c || esMinuscula c || ('A' ≤ c && c ≤ 'Z') || c = '_' ||
  c = 'á' || c = 'é' || c = 'í' || c = 'ó' || c = 'ú' || c = 'ñ' || c = 'ü'

/-- Is there a word boundary between the end of a match and `resto`?
(The patterns substituted all end in a word character.) -/
def limiteDespues : List Char → Bool
  | [] => true
  | c :: _ => !esCaracterPalabra c

/-- One pass of `re.sub(r'\b' + re.escape(frase) + r'\b', reemplazo, texto)`
for a phrase of word characters and spaces. `inicioOk` records whether a
match may start at the current position (the previous character of the
scanned text, if any, was not a word character). After a replacement the
scan resumes right after the matched text of the input, so the boundary
state is taken from the pattern's last character. Fuel is the input length;
every step consumes at least one input character for nonempty patterns. -/
def subPalabraAux (pat repl : List Char) : Nat → List Char → Bool → List Char
  | 0, l, _ => l
  | _ + 1, [], _ => []
  | fuel + 1, c :: resto, inicioOk =>
    match (if inicioOk then tomarLit pat (c :: resto) else none) with
    | some r =>
      if limiteDespues r then
        repl ++ subPalabraAux pat repl fuel r
          (match pat.getLast? with
           | some p => !esCaracterPalabra p
           | none => inicioOk)
      else c :: subPalabraAux pat repl fuel resto (!esCaracterPalabra c)
    | none => c :: subPalabraAux pat repl fuel resto (!esCaracterPalabra c)

/-- One `re.sub` pass of a whole-word phrase over a string. -/
def subPalabra (pat repl texto : String) : String :=
  String.mk (subPalabraAux pat.data repl.data texto.data.length texto.data true)

/-- The ordered `mapeo` of `_reemplazar_operadores_compuestos`. -/
def mapeoOperadores : List (String × String) :=
  [("mayor o igual que", ">="), ("menor o igual que", "<="), ("mayor que", ">"),
   ("menor que", "<"), ("menor a", "<"), ("igual a", "="), ("igual", "="),
   ("no es", "!="), ("diferente de", "!=")]

/-- Model of `_reemplazar_operadores_compuestos` from compilador.py: lowercase, then
apply the whole-word substitutions in the mapping's definition order. -/
def reemplazar_operadores_compuestos (texto : String) : String :=
  mapeoOperadores.foldl (fun t fr => subPalabra fr.1 fr.2 t) (minuscula texto)

/-- One condition of the structured query (the dicts appended to
`estructura["condiciones"]`). -/
structure Condicion where
  atributo : String
  operador : String
  valor : String
deriving DecidableEq, Repr

/-- The `estructura` dict built by `analisis_sintactico`. The key
`atributos_mostrar` is created on demand by `setdefault` and immediately
appended to, so in the Python dict the key is present exactly when the list
is nonempty; it is modelled as a plain list with `[]` for "absent". -/
structure Estructura where
  accion : Option String
  entidad : Option String
  condiciones : List Condicion
  atributos_mostrar : List String
deriving DecidableEq, Repr

def estructuraVacia : Estructura := ⟨none, none, [], []⟩

/-- The closed table-name set of the parser's PALABRA rule. -/
def tablasValidas : List String := ["clientes", "productos", "ventas"]

/-- The closed column-name set of the parser's PALABRA rule. -/
def atributosValidos : List String := ["nombre", "edad", "id", "dept", "precio", "fecha"]

/-- Python `str.rstrip(".")`. -/
def quitarPuntosFinales (s : String) : String :=
  String.mk (s.data.reverse.dropWhile (· = '.')).reverse

/-- The inner `while j < len(tokens) - 2` forward scan of the CONECTOR
branch. Token accesses are `Option`-valued so that an out-of-bounds read
surfaces as `none`. Fuel bounds the iteration count; `j` grows by 1 or 4
per iteration, so `tokens.length + 1` fuel is never exhausted. -/
def scanConectorAux : Nat → List Token → Nat → List Condicion →
    Option (Nat × List Condicion)
  | 0, _, j, conds => some (j, conds)
  | fuel + 1, tokens, j, conds =>
    if j < tokens.length - 2 then do
      let t0 ← tokens[j]?
      let t1 ← tokens[j+1]?
      let t2 ← tokens[j+2]?
      if t0.tipo = "PALABRA" ∧ t1.tipo = "PALABRA" ∧ t2.tipo = "PALABRA" then
        let opN := reemplazar_operadores_compuestos (t1.valor ++ " " ++ t2.valor)
        if operadores.contains opN ∧ j + 3 < tokens.length then do
          let t3 ← tokens[j+3]?
          scanConectorAux fuel tokens (j + 4) (conds ++ [⟨t0.valor, opN, t3.valor⟩])
        else scanConectorAux fuel tokens (j + 1) conds
      else scanConectorAux fuel tokens (j + 1) conds
    else some (j, conds)

def scanConector (tokens : List Token) (j : Nat) (conds : List Condicion) :
    Option (Nat × List Condicion) :=
  scanConectorAux (tokens.length + 1) tokens j conds

/-- Append one condition. -/
def agregaCond (e : Estructura) (c : Condicion) : Estructura :=
  { e with condiciones := e.condiciones ++ [c] }

/-- The tail of the parser's `elif` chain: the `llama` / `llaman` rule and
the implicit no-rule default. -/
def cadenaLlama (tokens : List Token) (i : Nat) (e : Estructura) (t : Token) :
    Option (Nat × Estructura) := do
  if (t.valor = "llama" ∨ t.valor = "llaman") ∧ 2 ≤ i then
    let prev ← tokens[i-1]?
    if prev.valor = "se" then
      let e1 ←
        if e.entidad = none ∧ 3 ≤ i then do
          let atras ← tokens[i-3]?
          pure { e with entidad := some atras.valor }
        else pure e
      match tokens[i+1]? with
      | some sig => return (i + 2, agregaCond e1 ⟨"nombre", "=", sig.valor⟩)
      | none => return (i + 1, e1)
    else return (i + 1, e)
  else return (i + 1, e)

/-- The `llamado` / `llamados` / `llamada` rule, falling through to
`cadenaLlama` when its condition fails. -/
def cadenaLlamado (tokens : List Token) (i : Nat) (e : Estructura) (t : Token) :
    Option (Nat × Estructura) := do
  if (t.valor = "llamado" ∨ t.valor = "llamados" ∨ t.valor = "llamada") ∧ 0 < i then
    let prev ← tokens[i-1]?
    if prev.tipo = "PALABRA" then
      let e1 := if e.entidad = none then { e with entidad := some prev.valor } else e
      match tokens[i+1]? with
      | some sig => return (i + 2, agregaCond e1 ⟨"nombre", "=", sig.valor⟩)
      | none => return (i + 1, e1)
    else cadenaLlama tokens i e t
  else cadenaLlama tokens i e t

/-- The `valor == "de"` (entity / `dept`) rule, falling through to
`cadenaLlamado` when its condition fails. -/
def cadenaDe (tokens : List Token) (i : Nat) (e : Estructura) (t : Token) :
    Option (Nat × Estructura) := do
  if t.valor = "de" ∧ 0 < i then
    let prev ← tokens[i-1]?
    if prev.tipo = "PALABRA" then
      let sigEsFecha :=
        match tokens[i+1]? with
        | some sig => es_fecha sig.valor
        | none => false
      if sigEsFecha then return (i + 1, e)
      else
        let e1 := if e.entidad = none then { e with entidad := some prev.valor } else e
        match tokens[i+1]? with
        | some sig =>
          if sig.tipo = "PALABRA" then
            return (i + 2, agregaCond e1 ⟨"dept", "=", quitarPuntosFinales sig.valor⟩)
          else return (i + 1, e1)
        | none => return (i + 1, e1)
    else cadenaLlamado tokens i e t
  else cadenaLlamado tokens i e t

/-- The `if/elif` chain of the parser loop body (everything after the two
date rules), for the token `t = tokens[i]`. Each result is the next cursor
value together with the updated structure; the cursor value includes the
`i += 1` at the bottom of the Python loop except for the CONECTOR branch,
which jumps to the scan's ending position and `continue`s. -/
def pasoCadena (tokens : List Token) (i : Nat) (e : Estructura) (t : Token) :
    Option (Nat × Estructura) := do
  if t.tipo = "ACCION" ∧ e.accion = none then
    return (i + 1, { e with accion := some t.valor })
  else if t.tipo = "INDICADOR_ENTIDAD" then
    match tokens[i+1]? with
    | some sig =>
      if sig.tipo = "PALABRA" then return (i + 2, { e with entidad := some sig.valor })
      else return (i + 1, e)
    | none => return (i + 1, e)
  else if t.tipo = "PALABRA" ∧ e.entidad = none then
    if tablasValidas.contains t.valor then
      return (i + 1, { e with entidad := some t.valor })
    else if atributosValidos.contains t.valor then
      return (i + 1, { e with atributos_mostrar := e.atributos_mostrar ++ [t.valor] })
    else return (i + 1, e)
  else if t.tipo = "CONECTOR" ∧ (t.valor = "donde" ∨ t.valor = "que") then
    let (j, conds) ← scanConector tokens (i + 1) e.condiciones
    return (j, { e with condiciones := conds })
  else if t.valor = "con" ∧ i + 4 < tokens.length then
    let t1 ← tokens[i+1]?
    let t2 ← tokens[i+2]?
    let t3 ← tokens[i+3]?
    let t4 ← tokens[i+4]?
    let op := reemplazar_operadores_compuestos (t2.valor ++ " " ++ t3.valor)
    if operadores.contains op then
      return (i + 5, agregaCond e ⟨t1.valor, op, t4.valor⟩)
    else return (i + 1, e)
  else cadenaDe tokens i e t

/-- One iteration of the `while i < len(tokens)` loop of
`analisis_sintactico`: the two date rules, then the `elif` chain. Returns
the next cursor position and structure; `none` models an out-of-bounds
token access. -/
def pasoSintactico (tokens : List Token) (i : Nat) (e : Estructura) :
    Option (Nat × Estructura) := do
  let t ← tokens[i]?
  if es_fecha t.valor then
    return (i + 1, agregaCond e ⟨"fecha", "=", t.valor⟩)
  else if t.valor = "de" ∧ 1 < i then
    let prev ← tokens[i-1]?
    if prev.valor = "en" then
      match unir_fecha tokens (i-1) with
      | (some fecha, saltos) => return (i + saltos, agregaCond e ⟨"fecha", "=", fecha⟩)
      | (none, _) => pasoCadena tokens i e t
    else pasoCadena tokens i e t
  else pasoCadena tokens i e t

/-- The `while` loop of `analisis_sintactico`, driven by fuel. The cursor
strictly increases each iteration, so `tokens.length + 1` fuel always
reaches `i ≥ tokens.length`. -/
def analisisAux : Nat → List Token → Nat → Estructura → Option Estructura
  | 0, _, _, e => some e
  | fuel + 1, tokens, i, e =>
    if i < tokens.length then
      match pasoSintactico tokens i e with
      | some (i', e') => analisisAux fuel tokens i' e'
      | none => none
    else some e

/-- Model of `analisis_sintactico` from compilador.py. -/
def analisis_sintactico (tokens : List Token) : Option Estructura :=
  analisisAux (tokens.length + 1) tokens 0 estructuraVacia

/-- The full English month names with their numbers, as matched by
`datetime.strptime`'s `%B` directive under the default C locale. -/
def mesesIngles : List (String × Nat) :=
  [("january", 1), ("february", 2), ("march", 3), ("april", 4), ("may", 5),
   ("june", 6), ("july", 7), ("august", 8), ("september", 9), ("october", 10),
   ("november", 11), ("december", 12)]

def esBisiesto (y : Nat) : Bool := y % 4 = 0 && (y % 100 ≠ 0 || y % 400 = 0)

def diasEnMes (m y : Nat) : Nat :=
  if m = 2 then (if esBisiesto y then 29 else 28)
  else if m = 4 ∨ m = 6 ∨ m = 9 ∨ m = 11 then 30 else 31

/-- Numeric value of a digit string. -/
def valorDigitos (l : List Char) : Nat :=
  l.foldl (fun n c => n * 10 + (c.toNat - 48)) 0

/-- Zero-pad to two digits (strftime `%d` / `%m`). -/
def pad2 (n : Nat) : String := if n < 10 then "0" ++ toString n else toString n

/-- One day-width alternative of the strptime parse below. -/
def analizaLargo (nd : Nat) (l : List Char) : Option String := do
  let r1 ← tomarDigitos nd l
  let dia := valorDigitos (l.take nd)
  let r2 ← tomarLit (String.data " de ") r1
  let mes ← mesesIngles.find? (fun p => p.1.data.isPrefixOf (r2.map minusculaChar))
  let r3 := r2.drop mes.1.length
  let r4 ← tomarLit (String.data " de ") r3
  let r5 ← tomarDigitos 4 r4
  let anio := valorDigitos (r4.take 4)
  if r5 = [] ∧ 1 ≤ dia ∧ dia ≤ diasEnMes mes.2 anio ∧ 1 ≤ anio then
    some (toString anio ++ "-" ++ pad2 mes.2 ++ "-" ++ pad2 dia)
  else none

/-- Model of `datetime.strptime(valor, "%d de %B de %Y")` followed by
`strftime("%Y-%m-%d")`: a 1-2 digit day, the literal " de ", a full English
month name (case-insensitive, C locale — Spanish month names never parse), the
literal " de ", a 4-digit year, end of string; the day is validated against
the calendar by the datetime constructor. Returns the ISO rendering. -/
def strptimeLargo (valor : String) : Option String :=
  (analizaLargo 2 valor.data).orElse (fun _ => analizaLargo 1 valor.data)

/-- Prefix match of `\d{1,2} de [a-z]+ de \d{4}` — the source uses
`re.match`, not `re.fullmatch`, in `generar_sql`. -/
def coincideFechaLarga (valor : String) : Bool :=
  (tomarDigitos 2 valor.data >>= cola4).isSome
    || (tomarDigitos 1 valor.data >>= cola4).isSome

/-- Python `valor.replace(".", "", 1)`: drop the first dot, if any. -/
def quitarPrimerPunto : List Char → List Char
  | [] => []
  | c :: r => if c = '.' then r else c :: quitarPrimerPunto r

/-- The test `valor.replace(".", "", 1).isdigit()` from `generar_sql` (digits taken
as ASCII digits, the only digits this program's inputs contain). -/
def esNumerico (valor : String) : Bool :=
  let l := quitarPrimerPunto valor.data
  !l.isEmpty && l.all esDigito

/-- The loop body of `generar_sql`: render one condition. -/
def renderCondicion (cond : Condicion) : String :=
  if cond.atributo = "fecha" ∧ coincideFechaLarga cond.valor then
    let valor := (strptimeLargo cond.valor).getD cond.valor
    cond.atributo ++ " " ++ cond.operador ++ " DATE('" ++ valor ++ "')"
  else if esNumerico cond.valor then
    cond.atributo ++ " " ++ cond.operador ++ " " ++ cond.valor
  else
    cond.atributo ++ " " ++ cond.operador ++ " '" ++ cond.valor ++ "'"

/-- The fixed sentinel returned when the entity is missing. -/
def sentinelaSQL : String := "-- No se puede generar consulta SQL: entidad desconocida."

/-- Model of `generar_sql` from compilador.py. `if not estructura["entidad"]` is
Python truthiness: both `None` and the empty string take the sentinel
branch. -/
def generar_sql (e : Estructura) : String :=
  if e.entidad = none ∨ e.entidad = some "" then sentinelaSQL
  else
    let ent := e.entidad.getD ""
    let base :=
      if e.atributos_mostrar ≠ [] then
        "SELECT " ++ String.intercalate ", " e.atributos_mostrar ++ " FROM " ++ ent
      else "SELECT * FROM " ++ ent
    let conds := e.condiciones.map renderCondicion
    if conds ≠ [] then base ++ " WHERE " ++ String.intercalate " AND " conds
    else base

/-- Model of `compilador_nl2sql_texto` from compilador.py, without the logging:
lexer, parser, SQL generator; returns the SQL and the structure. -/
def compilador_nl2sql_texto (texto : String) : Option (String × Estructura) := do
  let e ← analisis_sintactico (analisis_lexico texto)
  return (generar_sql e, e)

/-- Model of `TrieNode` from compilador.py: the `children` defaultdict (a map from
single characters to child nodes, preserving insertion order, modelled as an
association list) and the `is_end_of_word` flag. -/
inductive TrieNode where
  | mk : List (Char × TrieNode) → Bool → TrieNode

def TrieNode.children : TrieNode → List (Char × TrieNode)
  | .mk ch _ => ch

def TrieNode.esFin : TrieNode → Bool
  | .mk _ e => e

/-- A fresh `TrieNode()`. -/
def TrieNode.vacio : TrieNode := .mk [] false

/-- Look a character up in the child map. -/
def buscaHijo (c : Char) : List (Char × TrieNode) → Option TrieNode
  | [] => none
  | (a, t) :: r => if a = c then some t else buscaHijo c r

/-- Replace the child stored under an existing key, keeping its position. -/
def actualizaHijo (c : Char) (t' : TrieNode) :
    List (Char × TrieNode) → List (Char × TrieNode)
  | [] => []
  | (a, t) :: r => if a = c then (a, t') :: r else (a, t) :: actualizaHijo c t' r

/-- Model of `Trie.insert`: walk the word's characters, creating children on demand
(the defaultdict appends missing keys in insertion order) and set the
end-of-word flag on the final node. -/
def inserta : List Char → TrieNode → TrieNode
  | [], .mk ch _ => .mk ch true
  | c :: cs, .mk ch e =>
    match buscaHijo c ch with
    | some t => .mk (actualizaHijo c (inserta cs t) ch) e
    | none => .mk (ch ++ [(c, inserta cs TrieNode.vacio)]) e

/-- Model of `Trie.search`: follow the characters; `False` on a missing child,
otherwise the end-of-word flag of the final node. -/
def buscaPalabra : TrieNode → List Char → Bool
  | .mk _ e, [] => e
  | .mk ch _, c :: cs =>
    match buscaHijo c ch with
    | some t => buscaPalabra t cs
    | none => false

mutual
/-- Model of `Trie.get_all_words`: depth-first enumeration — the node's own prefix
first (when the flag is set), then each child in insertion order. -/
def palabrasDesde : TrieNode → List Char → List (List Char)
  | .mk ch e, pre => (if e then [pre] else []) ++ palabrasHijos ch pre
def palabrasHijos : List (Char × TrieNode) → List Char → List (List Char)
  | [], _ => []
  | (c, t) :: r, pre => palabrasDesde t (pre ++ [c]) ++ palabrasHijos r pre
end

/-- The `Trie` class owns a root node. -/
def Trie : Type := TrieNode

def Trie.nuevo : Trie := TrieNode.vacio

def Trie.insert (tr : Trie) (word : String) : Trie := inserta word.data tr

def Trie.search (tr : Trie) (word : String) : Bool := buscaPalabra tr word.data

def Trie.get_all_words (tr : Trie) : List String :=
  (palabrasDesde tr []).map String.mk

/-- Insert a list of words in order into a trie. -/
def insertaTodas (l : List String) (tr : Trie) : Trie :=
  l.foldl Trie.insert tr

/-- One pending revision recorded by `revisar_y_sugerir_traduccion`. The
Python dicts carry `tipo`, `original` and (for the attribute kinds) the
index into the structure; the entity kind uses no index. -/
structure Revision where
  tipo : String
  original : String
  indice : Nat
deriving DecidableEq, Repr

/-- Steps 1-3 of `revisar_y_sugerir_traduccion`: collect the revisions for
the entity, the shown attributes, and the condition attributes that are not
found (exact match) in the Trie. The entity and condition-attribute checks
test Python truthiness first (`entidad_sugerida and not ...`), so an empty
string is skipped there. -/
def revisionesDe (estructura : Estructura) (tr : Trie) : List Revision :=
  (match estructura.entidad with
   | some ent => if ent ≠ "" ∧ ¬ tr.search ent then [⟨"entidad", ent, 0⟩] else []
   | none => []) ++
  (estructura.atributos_mostrar.enum.filterMap fun p =>
    if ¬ tr.search p.2 then some ⟨"atributo_mostrar", p.2, p.1⟩ else none) ++
  (estructura.condiciones.enum.filterMap fun p =>
    if p.2.atributo ≠ "" ∧ ¬ tr.search p.2.atributo then
      some ⟨"atributo_condicion", p.2.atributo, p.1⟩
    else none)

/-- Model of `re.sub(r'\b' + re.escape(old) + r'\b', new, sql, 1)`: replace only the
first whole-word occurrence. -/
def subPalabraUnaAux (pat repl : List Char) : Nat → List Char → Bool → List Char
  | 0, l, _ => l
  | _ + 1, [], _ => []
  | fuel + 1, c :: resto, inicioOk =>
    match (if inicioOk then tomarLit pat (c :: resto) else none) with
    | some r => if limiteDespues r then repl ++ r
        else c :: subPalabraUnaAux pat repl fuel resto (!esCaracterPalabra c)
    | none => c :: subPalabraUnaAux pat repl fuel resto (!esCaracterPalabra c)

def subPalabraUna (pat repl texto : String) : String :=
  String.mk (subPalabraUnaAux pat.data repl.data texto.data.length texto.data true)

/-- Update the attribute of the condition at an index. -/
def actualizaCondAtributo (conds : List Condicion) (i : Nat) (nuevo : String) :
    List Condicion :=
  conds.enum.map fun p => if p.1 = i then { p.2 with atributo := nuevo } else p.2

/-- Apply one confirmed revision, as the loop body of
`revisar_y_sugerir_traduccion`: an entity revision replaces `FROM <old>` by
`FROM <new>` everywhere in the SQL text (Python `str.replace`); a
shown-attribute revision replaces the first whole-word occurrence; a
condition-attribute revision patches the structure and regenerates the SQL. -/
def aplicaRevision (rev : Revision) (elegida : String)
    (acc : String × Estructura) : String × Estructura :=
  let (sqlAct, est) := acc
  if rev.tipo = "entidad" then
    let old := est.entidad.getD ""
    (sqlAct.replace ("FROM " ++ old) ("FROM " ++ elegida),
     { est with entidad := some elegida })
  else if rev.tipo = "atributo_mostrar" then
    let old := est.atributos_mostrar.getD rev.indice ""
    (subPalabraUna old elegida sqlAct,
     { est with atributos_mostrar := est.atributos_mostrar.set rev.indice elegida })
  else
    let est' := { est with
      condiciones := actualizaCondAtributo est.condiciones rev.indice elegida }
    (generar_sql est', est')

/-- Model of `revisar_y_sugerir_traduccion` from compilador.py. The two external
collaborators are injected: `sugiere` models `difflib.get_close_matches`
over the Trie's word enumeration, and `elige` models the validated
interactive `input()` loop, returning a position in the options list
(clamped, as the re-prompt loop guarantees an in-range 1-based choice).
When no revision is recorded the SQL is returned unchanged and the
structure is untouched. -/
def revisar_y_sugerir_traduccion
    (sugiere : String → List String → List String)
    (elige : Revision → List String → Nat)
    (sql_query : String) (estructura : Estructura) (tr : Trie) :
    String × Estructura :=
  let revisiones := revisionesDe estructura tr
  if revisiones.isEmpty then (sql_query, estructura)
  else
    revisiones.foldl
      (fun acc rev =>
        let opciones := rev.original :: sugiere rev.original tr.get_all_words
        let elegida := opciones.getD (min (elige rev opciones) (opciones.length - 1))
          rev.original
        aplicaRevision rev elegida acc)
      (sql_query, estructura)

/-! ## Lemmas -/

theorem tomarDigitos_cons_no (n : Nat) (c : Char) (l : List Char)
    (h : esDigito c = false) : tomarDigitos (n + 1) (c :: l) = none := by
  simp [tomarDigitos, h]

/-- Every accepted date shape starts with a digit. -/
theorem es_fecha_head_no_digito (s : String) (c : Char) (r : List Char)
    (hdata : (minuscula s).data = c :: r) (h : esDigito c = false) :
    es_fecha s = false := by
  unfold es_fecha
  rw [hdata]
  simp [formato1, formato2, formato3, formato4, cola4,
    tomarDigitos_cons_no _ _ _ h]

theorem minusculaChar_e : minusculaChar 'e' = 'e' := by decide

/-- A space-join of parts starting with the word "en" starts with 'e'. -/
theorem minuscula_unirEspacios_en (xs : List String) :
    ∃ r, (minuscula (unirEspacios ("en" :: xs))).data = 'e' :: r := by
  cases xs with
  | nil => exact ⟨['n'], rfl⟩
  | cons y ys =>
    refine ⟨'n' :: ' ' :: ((unirEspacios (y :: ys)).data.map minusculaChar), ?_⟩
    show (("en" ++ " " ++ unirEspacios (y :: ys)).data.map minusculaChar) = _
    simp [String.data_append]
    exact ⟨by decide, by decide, by decide⟩

theorem esDigito_e : esDigito 'e' = false := by decide

/-- Once the accumulated parts start with "en", `unir_fecha`'s join loop can
never match a date and returns `(none, 0)`. -/
theorem unirFechaAux_en (l : List Token) (rest : List String) (consumidos : Nat) :
    unirFechaAux l ("en" :: rest) consumidos = (none, 0) := by
  induction l generalizing rest consumidos with
  | nil => rfl
  | cons t r ih =>
    unfold unirFechaAux
    obtain ⟨q, hq⟩ := minuscula_unirEspacios_en (rest ++ [t.valor])
    rw [show ("en" :: rest) ++ [t.valor] = "en" :: (rest ++ [t.valor]) from rfl]
    simp only [es_fecha_head_no_digito _ _ _ hq esDigito_e]
    simpa using ih (rest ++ [t.valor]) (consumidos + 1)

/-- The function `unir_fecha` started on a token whose literal is "en" always fails:
every joined phrase starts with "en", and no date shape starts with a
letter. -/
theorem unir_fecha_en (tokens : List Token) (inicio : Nat) (t : Token)
    (h : tokens[inicio]? = some t) (hv : t.valor = "en") :
    unir_fecha tokens inicio = (none, 0) := by
  unfold unir_fecha
  have hlt : inicio < tokens.length := by
    by_contra hge
    rw [List.getElem?_eq_none (Nat.le_of_not_lt hge)] at h
    exact Option.noConfusion h
  rw [List.drop_eq_getElem_cons hlt]
  have ht : tokens[inicio] = t := by
    rw [List.getElem?_eq_getElem hlt] at h
    exact Option.some.inj h
  rw [ht]
  unfold unirFechaAux
  rw [hv]
  simp only [List.nil_append, show es_fecha (unirEspacios ["en"]) = false from rfl,
    if_false, Bool.false_eq_true]
  exact unirFechaAux_en _ [] 1

/-- Under the trigger of the multi-token date rule — cursor on "de",
previous token "en" — the rule always falls through to the ordinary `elif`
chain: it never emits a condition. -/
theorem paso_en_de_cae (tokens : List Token) (i : Nat) (e : Estructura)
    (t prev : Token) (hi : tokens[i]? = some t) (hv : t.valor = "de")
    (h1 : 1 < i) (hp : tokens[i-1]? = some prev) (hpv : prev.valor = "en") :
    pasoSintactico tokens i e = pasoCadena tokens i e t := by
  unfold pasoSintactico
  rw [hi]
  simp only [Option.bind_eq_bind, Option.some_bind]
  rw [hv]
  simp only [show es_fecha "de" = false from rfl,
    Bool.false_eq_true, if_false, if_pos (And.intro rfl h1), hp,
    Option.some_bind, hpv, if_pos rfl,
    unir_fecha_en tokens (i-1) prev hp hpv]
  simp

/-! ## Claim theorems -/

/-- C1: For the input "muéstrame los clientes donde la edad es mayor a 30",
the claim expects one condition `(edad, >, 30)` and the SQL
`SELECT * FROM clientes WHERE edad > 30`; the code instead parses no
condition at all ("es mayor" and "mayor a" are not operator phrases of the
normalizer's mapping) and generates `SELECT * FROM clientes`. -/
theorem c1_contraejemplo :
    compilador_nl2sql_texto "muéstrame los clientes donde la edad es mayor a 30" =
      some ("SELECT * FROM clientes",
        { accion := some "muéstrame", entidad := some "clientes",
          condiciones := [], atributos_mostrar := [] }) ∧
    ("SELECT * FROM clientes" : String) ≠ "SELECT * FROM clientes WHERE edad > 30" ∧
    ([] : List Condicion) ≠ [⟨"edad", ">", "30"⟩] :=
  ⟨rfl, by decide, by decide⟩

/-- C1 (amended): the pipeline on
"muéstrame los clientes donde la edad es mayor a 30" yields the entity
"clientes", an empty condition list, and the SQL `SELECT * FROM clientes`. -/
theorem c1_tuberia_clientes :
    compilador_nl2sql_texto "muéstrame los clientes donde la edad es mayor a 30" =
      some ("SELECT * FROM clientes",
        { accion := some "muéstrame", entidad := some "clientes",
          condiciones := [], atributos_mostrar := [] }) := rfl

/-- C2: the multi-token date rule is dead code. Whenever the cursor is on a
token "de" directly preceded by "en", `unir_fecha` is started on the "en"
token itself, every joined phrase starts with "en", no date shape matches,
and the parser falls through without emitting any `fecha` condition; in
particular for the token sequence of "ventas en 21 de julio de 2025" the
parser emits two `dept` conditions and no `fecha` condition, contrary to
the claim (and to the source's own comment and demo input). -/
theorem c2_rama_fecha_muerta :
    (∀ (tokens : List Token) (inicio : Nat) (t : Token),
      tokens[inicio]? = some t → t.valor = "en" →
      unir_fecha tokens inicio = (none, 0)) ∧
    (∀ (tokens : List Token) (i : Nat) (e : Estructura) (t prev : Token),
      tokens[i]? = some t → t.valor = "de" → 1 < i →
      tokens[i-1]? = some prev → prev.valor = "en" →
      pasoSintactico tokens i e = pasoCadena tokens i e t) ∧
    analisis_sintactico (analisis_lexico "ventas en 21 de julio de 2025") =
      some
        { accion := none, entidad := some "ventas",
          condiciones := [⟨"dept", "=", "julio"⟩, ⟨"dept", "=", "2025"⟩],
          atributos_mostrar := [] } :=
  ⟨unir_fecha_en, paso_en_de_cae, rfl⟩

/-- C2 witness: the dead-branch facts applied at a concrete token list. -/
theorem c2_rama_fecha_muerta_testigo :
    unir_fecha [⟨"PALABRA", "en"⟩, ⟨"PALABRA", "21"⟩, ⟨"PALABRA", "de"⟩,
      ⟨"PALABRA", "julio"⟩] 0 = (none, 0) :=
  c2_rama_fecha_muerta.1 _ 0 ⟨"PALABRA", "en"⟩ rfl rfl

/-- C3: the operator normalizer maps each recognized phrase to its canonical
symbol, and "mayor o igual que" normalizes to ">=" (not ">"). -/
theorem c3_normalizador_operadores :
    reemplazar_operadores_compuestos "mayor o igual que" = ">=" ∧
    reemplazar_operadores_compuestos "menor o igual que" = "<=" ∧
    reemplazar_operadores_compuestos "mayor que" = ">" ∧
    reemplazar_operadores_compuestos "menor que" = "<" ∧
    reemplazar_operadores_compuestos "menor a" = "<" ∧
    reemplazar_operadores_compuestos "igual a" = "=" ∧
    reemplazar_operadores_compuestos "igual" = "=" ∧
    reemplazar_operadores_compuestos "no es" = "!=" ∧
    reemplazar_operadores_compuestos "diferente de" = "!=" ∧
    reemplazar_operadores_compuestos "mayor o igual que" ≠ ">" :=
  ⟨rfl, rfl, rfl, rfl, rfl, rfl, rfl, rfl, rfl, by decide⟩

/-! ## Declarative characterization of the date shapes (C4) -/

theorem tomarDigitos_iff (n : Nat) (l r : List Char) :
    tomarDigitos n l = some r ↔
      ∃ d, l = d ++ r ∧ d.length = n ∧ ∀ c ∈ d, esDigito c = true := by
  induction n generalizing l with
  | zero =>
    simp only [tomarDigitos, Option.some.injEq, List.length_eq_zero]
    constructor
    · rintro rfl; exact ⟨[], rfl, rfl, by simp⟩
    · rintro ⟨d, rfl, rfl, -⟩; simp
  | succ n ih =>
    cases l with
    | nil =>
      simp only [tomarDigitos]
      constructor
      · rintro ⟨⟩
      · rintro ⟨d, h, hl, -⟩
        cases d with
        | nil => simp at hl
        | cons a d => simp at h
    | cons c l =>
      simp only [tomarDigitos]
      by_cases hc : esDigito c = true
      · rw [if_pos hc, ih]
        constructor
        · rintro ⟨d, rfl, rfl, hd⟩
          exact ⟨c :: d, rfl, by simp, by
            intro x hx
            rcases List.mem_cons.mp hx with rfl | hx
            · exact hc
            · exact hd x hx⟩
        · rintro ⟨d, h, hl, hd⟩
          cases d with
          | nil => simp at hl
          | cons a d =>
            obtain ⟨rfl, rfl⟩ : c = a ∧ l = d ++ r := by simpa using h
            exact ⟨d, rfl, by simpa using hl, fun x hx => hd x (by simp [hx])⟩
      · rw [if_neg hc]
        constructor
        · rintro ⟨⟩
        · rintro ⟨d, h, hl, hd⟩
          cases d with
          | nil => simp at hl
          | cons a d =>
            obtain ⟨rfl, -⟩ : c = a ∧ l = d ++ r := by simpa using h
            exact absurd (hd c (by simp)) hc

theorem tomarChar_iff (a : Char) (l r : List Char) :
    tomarChar a l = some r ↔ l = a :: r := by
  cases l with
  | nil => simp [tomarChar]
  | cons c l =>
    simp only [tomarChar, List.cons.injEq]
    by_cases hc : c = a
    · subst hc; simp
    · simp [hc, Ne.symm hc]

theorem tomarLit_iff (p l r : List Char) :
    tomarLit p l = some r ↔ l = p ++ r := by
  induction p generalizing l with
  | nil => simp [tomarLit]
  | cons a p ih =>
    simp only [tomarLit]
    cases h : tomarChar a l with
    | none =>
      constructor
      · rintro ⟨⟩
      · rintro rfl
        simp [tomarChar] at h
    | some l' =>
      rw [tomarChar_iff] at h
      subst h
      simp [ih]

theorem tomarMinusculas1_some (l r : List Char) (h : tomarMinusculas1 l = some r) :
    ∃ m, l = m ++ r ∧ m ≠ [] ∧ ∀ c ∈ m, esMinuscula c = true := by
  cases l with
  | nil => exact absurd h (by simp [tomarMinusculas1])
  | cons c l =>
    by_cases hc : esMinuscula c = true
    · refine ⟨c :: l.takeWhile esMinuscula, ?_, by simp, ?_⟩
      · have hr : r = l.dropWhile esMinuscula := by
          simpa [tomarMinusculas1, hc] using h.symm
        rw [hr]
        simp [List.takeWhile_append_dropWhile]
      · intro x hx
        rcases List.mem_cons.mp hx with rfl | hx
        · exact hc
        · exact List.mem_takeWhile_imp hx
    · exact absurd h (by simp [tomarMinusculas1, hc])

theorem dropWhile_append_no (p : Char → Bool) (m rest : List Char)
    (hm : ∀ c ∈ m, p c = true) (hr : rest.head? = none ∨
      ∃ c, rest.head? = some c ∧ p c = false) :
    (m ++ rest).dropWhile p = rest := by
  induction m with
  | nil =>
    cases rest with
    | nil => rfl
    | cons c r =>
      rcases hr with h | ⟨c', hc', hp⟩
      · simp at h
      · simp only [List.head?_cons, Option.some.injEq] at hc'
        subst hc'
        simp [List.dropWhile, hp]
  | cons a m ih =>
    have ha := hm a (by simp)
    simp only [List.cons_append, List.dropWhile, ha]
    exact ih (fun c hc => hm c (by simp [hc]))

theorem tomarMinusculas1_of_decomp (m rest : List Char) (hne : m ≠ [])
    (hm : ∀ c ∈ m, esMinuscula c = true)
    (hr : rest.head? = none ∨ ∃ c, rest.head? = some c ∧ esMinuscula c = false) :
    tomarMinusculas1 (m ++ rest) = some rest := by
  cases m with
  | nil => exact absurd rfl hne
  | cons a m =>
    have ha := hm a (by simp)
    simp only [List.cons_append, tomarMinusculas1, ha, if_pos]
    rw [dropWhile_append_no esMinuscula m rest (fun c hc => hm c (by simp [hc])) hr]

/-- The first date shape, declaratively: `YYYY-MM-DD` with digit segments. -/
def Forma1 (l : List Char) : Prop :=
  ∃ y m d : List Char, y.length = 4 ∧ m.length = 2 ∧ d.length = 2 ∧
    (∀ c ∈ y ++ m ++ d, esDigito c = true) ∧ l = y ++ '-' :: (m ++ '-' :: d)

/-- The second date shape, declaratively: `DD/MM/YYYY`. -/
def Forma2 (l : List Char) : Prop :=
  ∃ d m y : List Char, d.length = 2 ∧ m.length = 2 ∧ y.length = 4 ∧
    (∀ c ∈ d ++ m ++ y, esDigito c = true) ∧ l = d ++ '/' :: (m ++ '/' :: y)

/-- The third date shape, declaratively: `DD-MM-YYYY`. -/
def Forma3 (l : List Char) : Prop :=
  ∃ d m y : List Char, d.length = 2 ∧ m.length = 2 ∧ y.length = 4 ∧
    (∀ c ∈ d ++ m ++ y, esDigito c = true) ∧ l = d ++ '-' :: (m ++ '-' :: y)

/-- The fourth date shape, declaratively: `D(D) de <lowercase word> de YYYY`. -/
def Forma4 (l : List Char) : Prop :=
  ∃ d m y : List Char, (d.length = 1 ∨ d.length = 2) ∧
    (∀ c ∈ d, esDigito c = true) ∧ m ≠ [] ∧ (∀ c ∈ m, esMinuscula c = true) ∧
    y.length = 4 ∧ (∀ c ∈ y, esDigito c = true) ∧
    l = d ++ ' ' :: 'd' :: 'e' :: ' ' :: (m ++ ' ' :: 'd' :: 'e' :: ' ' :: y)

theorem formato1_iff (l : List Char) : formato1 l = true ↔ Forma1 l := by
  unfold formato1 Forma1
  rw [decide_eq_true_iff]
  constructor
  · intro h
    obtain ⟨r4, h, h5⟩ := Option.bind_eq_some.mp h
    obtain ⟨r3, h, h4⟩ := Option.bind_eq_some.mp h
    obtain ⟨r2, h, h3⟩ := Option.bind_eq_some.mp h
    obtain ⟨r1, h1, h2⟩ := Option.bind_eq_some.mp h
    obtain ⟨y, rfl, hy4, hyd⟩ := (tomarDigitos_iff _ _ _).mp h1
    rw [tomarChar_iff] at h2
    obtain ⟨m, rfl, hm2, hmd⟩ := (tomarDigitos_iff _ _ _).mp h3
    rw [tomarChar_iff] at h4
    obtain ⟨d, hr4, hd2, hdd⟩ := (tomarDigitos_iff _ _ _).mp h5
    rw [List.append_nil] at hr4
    subst hr4
    refine ⟨y, m, r4, hy4, hm2, hd2, ?_, by rw [h2, h4]⟩
    intro c hc
    rcases List.mem_append.mp hc with hc | hc
    · rcases List.mem_append.mp hc with hc | hc
      · exact hyd c hc
      · exact hmd c hc
    · exact hdd c (by simpa using hc)
  · rintro ⟨y, m, d, hy4, hm2, hd2, hdig, rfl⟩
    refine Option.bind_eq_some.mpr ⟨d, ?_,
      (tomarDigitos_iff _ _ _).mpr ⟨d, by simp, hd2,
        fun c hc => hdig c (by simp [hc])⟩⟩
    refine Option.bind_eq_some.mpr ⟨'-' :: d, ?_, rfl⟩
    refine Option.bind_eq_some.mpr ⟨m ++ '-' :: d, ?_,
      (tomarDigitos_iff _ _ _).mpr ⟨m, rfl, hm2,
        fun c hc => hdig c (by simp [hc])⟩⟩
    exact Option.bind_eq_some.mpr ⟨'-' :: (m ++ '-' :: d),
      (tomarDigitos_iff _ _ _).mpr ⟨y, rfl, hy4,
        fun c hc => hdig c (by simp [hc])⟩, rfl⟩

theorem formato2_iff (l : List Char) : formato2 l = true ↔ Forma2 l := by
  unfold formato2 Forma2
  rw [decide_eq_true_iff]
  constructor
  · intro h
    obtain ⟨r4, h, h5⟩ := Option.bind_eq_some.mp h
    obtain ⟨r3, h, h4⟩ := Option.bind_eq_some.mp h
    obtain ⟨r2, h, h3⟩ := Option.bind_eq_some.mp h
    obtain ⟨r1, h1, h2⟩ := Option.bind_eq_some.mp h
    obtain ⟨d, rfl, hd2, hdd⟩ := (tomarDigitos_iff _ _ _).mp h1
    rw [tomarChar_iff] at h2
    obtain ⟨m, rfl, hm2, hmd⟩ := (tomarDigitos_iff _ _ _).mp h3
    rw [tomarChar_iff] at h4
    obtain ⟨y, hr4, hy4, hyd⟩ := (tomarDigitos_iff _ _ _).mp h5
    rw [List.append_nil] at hr4
    subst hr4
    refine ⟨d, m, r4, hd2, hm2, hy4, ?_, by rw [h2, h4]⟩
    intro c hc
    rcases List.mem_append.mp hc with hc | hc
    · rcases List.mem_append.mp hc with hc | hc
      · exact hdd c hc
      · exact hmd c hc
    · exact hyd c (by simpa using hc)
  · rintro ⟨d, m, y, hd2, hm2, hy4, hdig, rfl⟩
    refine Option.bind_eq_some.mpr ⟨y, ?_,
      (tomarDigitos_iff _ _ _).mpr ⟨y, by simp, hy4,
        fun c hc => hdig c (by simp [hc])⟩⟩
    refine Option.bind_eq_some.mpr ⟨'/' :: y, ?_, rfl⟩
    refine Option.bind_eq_some.mpr ⟨m ++ '/' :: y, ?_,
      (tomarDigitos_iff _ _ _).mpr ⟨m, rfl, hm2,
        fun c hc => hdig c (by simp [hc])⟩⟩
    exact Option.bind_eq_some.mpr ⟨'/' :: (m ++ '/' :: y),
      (tomarDigitos_iff _ _ _).mpr ⟨d, rfl, hd2,
        fun c hc => hdig c (by simp [hc])⟩, rfl⟩

theorem formato3_iff (l : List Char) : formato3 l = true ↔ Forma3 l := by
  unfold formato3 Forma3
  rw [decide_eq_true_iff]
  constructor
  · intro h
    obtain ⟨r4, h, h5⟩ := Option.bind_eq_some.mp h
    obtain ⟨r3, h, h4⟩ := Option.bind_eq_some.mp h
    obtain ⟨r2, h, h3⟩ := Option.bind_eq_some.mp h
    obtain ⟨r1, h1, h2⟩ := Option.bind_eq_some.mp h
    obtain ⟨d, rfl, hd2, hdd⟩ := (tomarDigitos_iff _ _ _).mp h1
    rw [tomarChar_iff] at h2
    obtain ⟨m, rfl, hm2, hmd⟩ := (tomarDigitos_iff _ _ _).mp h3
    rw [tomarChar_iff] at h4
    obtain ⟨y, hr4, hy4, hyd⟩ := (tomarDigitos_iff _ _ _).mp h5
    rw [List.append_nil] at hr4
    subst hr4
    refine ⟨d, m, r4, hd2, hm2, hy4, ?_, by rw [h2, h4]⟩
    intro c hc
    rcases List.mem_append.mp hc with hc | hc
    · rcases List.mem_append.mp hc with hc | hc
      · exact hdd c hc
      · exact hmd c hc
    · exact hyd c (by simpa using hc)
  · rintro ⟨d, m, y, hd2, hm2, hy4, hdig, rfl⟩
    refine Option.bind_eq_some.mpr ⟨y, ?_,
      (tomarDigitos_iff _ _ _).mpr ⟨y, by simp, hy4,
        fun c hc => hdig c (by simp [hc])⟩⟩
    refine Option.bind_eq_some.mpr ⟨'-' :: y, ?_, rfl⟩
    refine Option.bind_eq_some.mpr ⟨m ++ '-' :: y, ?_,
      (tomarDigitos_iff _ _ _).mpr ⟨m, rfl, hm2,
        fun c hc => hdig c (by simp [hc])⟩⟩
    exact Option.bind_eq_some.mpr ⟨'-' :: (m ++ '-' :: y),
      (tomarDigitos_iff _ _ _).mpr ⟨d, rfl, hd2,
        fun c hc => hdig c (by simp [hc])⟩, rfl⟩

theorem cola4_eq_nil_iff (l : List Char) :
    cola4 l = some [] ↔
      ∃ m y : List Char, m ≠ [] ∧ (∀ c ∈ m, esMinuscula c = true) ∧
        y.length = 4 ∧ (∀ c ∈ y, esDigito c = true) ∧
        l = ' ' :: 'd' :: 'e' :: ' ' :: (m ++ ' ' :: 'd' :: 'e' :: ' ' :: y) := by
  unfold cola4
  constructor
  · intro h
    obtain ⟨r3, h, h4⟩ := Option.bind_eq_some.mp h
    obtain ⟨r2, h, h3⟩ := Option.bind_eq_some.mp h
    obtain ⟨r1, h1, h2⟩ := Option.bind_eq_some.mp h
    rw [tomarLit_iff] at h1
    obtain ⟨m, hr1, hmne, hm⟩ := tomarMinusculas1_some _ _ h2
    rw [tomarLit_iff] at h3
    obtain ⟨y, hr3, hy4, hyd⟩ := (tomarDigitos_iff _ _ _).mp h4
    rw [List.append_nil] at hr3
    subst hr3
    exact ⟨m, r3, hmne, hm, hy4, hyd, by rw [h1, hr1, h3]; rfl⟩
  · rintro ⟨m, y, hmne, hm, hy4, hyd, rfl⟩
    have h2 : tomarMinusculas1 (m ++ ' ' :: 'd' :: 'e' :: ' ' :: y) =
        some (' ' :: 'd' :: 'e' :: ' ' :: y) :=
      tomarMinusculas1_of_decomp m _ hmne hm (Or.inr ⟨' ', rfl, by decide⟩)
    refine Option.bind_eq_some.mpr ⟨y, ?_,
      (tomarDigitos_iff _ _ _).mpr ⟨y, by simp, hy4, hyd⟩⟩
    refine Option.bind_eq_some.mpr ⟨' ' :: 'd' :: 'e' :: ' ' :: y, ?_,
      (tomarLit_iff _ _ _).mpr rfl⟩
    exact Option.bind_eq_some.mpr ⟨m ++ ' ' :: 'd' :: 'e' :: ' ' :: y,
      (tomarLit_iff _ _ _).mpr rfl, h2⟩

theorem formato4_iff (l : List Char) : formato4 l = true ↔ Forma4 l := by
  unfold formato4 Forma4
  rw [Bool.or_eq_true, decide_eq_true_iff, decide_eq_true_iff]
  constructor
  · rintro (h | h)
    · obtain ⟨r1, h1, h2⟩ := Option.bind_eq_some.mp h
      obtain ⟨d, rfl, hd2, hdd⟩ := (tomarDigitos_iff _ _ _).mp h1
      obtain ⟨m, y, hmne, hm, hy4, hyd, rfl⟩ := (cola4_eq_nil_iff _).mp h2
      exact ⟨d, m, y, Or.inr hd2, hdd, hmne, hm, hy4, hyd, rfl⟩
    · obtain ⟨r1, h1, h2⟩ := Option.bind_eq_some.mp h
      obtain ⟨d, rfl, hd1, hdd⟩ := (tomarDigitos_iff _ _ _).mp h1
      obtain ⟨m, y, hmne, hm, hy4, hyd, rfl⟩ := (cola4_eq_nil_iff _).mp h2
      exact ⟨d, m, y, Or.inl hd1, hdd, hmne, hm, hy4, hyd, rfl⟩
  · rintro ⟨d, m, y, hdl, hdd, hmne, hm, hy4, hyd, rfl⟩
    have hcola : cola4 (' ' :: 'd' :: 'e' :: ' ' ::
        (m ++ ' ' :: 'd' :: 'e' :: ' ' :: y)) = some [] :=
      (cola4_eq_nil_iff _).mpr ⟨m, y, hmne, hm, hy4, hyd, rfl⟩
    rcases hdl with hd1 | hd2
    · refine Or.inr (Option.bind_eq_some.mpr ⟨_, ?_, hcola⟩)
      exact (tomarDigitos_iff _ _ _).mpr ⟨d, rfl, hd1, hdd⟩
    · refine Or.inl (Option.bind_eq_some.mpr ⟨_, ?_, hcola⟩)
      exact (tomarDigitos_iff _ _ _).mpr ⟨d, rfl, hd2, hdd⟩

/-- Any of the four date shapes. -/
def FormaFecha (l : List Char) : Prop :=
  Forma1 l ∨ Forma2 l ∨ Forma3 l ∨ Forma4 l

/-- C4: the date recognizer accepts exactly the full-string matches of the
four shapes (tested on the lowercased input, i.e. case-insensitively); in
particular the four sample strings are dates and "2025/07/21" is not. -/
theorem c4_reconocedor_fechas :
    es_fecha "2025-07-21" = true ∧ es_fecha "21/07/2025" = true ∧
    es_fecha "21-07-2025" = true ∧ es_fecha "21 de julio de 2025" = true ∧
    es_fecha "2025/07/21" = false ∧
    ∀ s : String, es_fecha s = true ↔ FormaFecha (minuscula s).data := by
  refine ⟨rfl, rfl, rfl, rfl, rfl, fun s => ?_⟩
  unfold es_fecha FormaFecha
  rw [← formato1_iff, ← formato2_iff, ← formato3_iff, ← formato4_iff]
  simp only [Bool.or_eq_true]
  tauto

/-! ## Numeric literal quoting (C6) -/

/-- The numeric-literal shape in the spec's words: a nonempty all-digit
string (a non-negative integer), or a single dot with digits around it
(a decimal with one dot). -/
def ValorNumerico (v : String) : Prop :=
  (v.data ≠ [] ∧ ∀ c ∈ v.data, esDigito c = true) ∨
  (∃ a b : List Char, v.data = a ++ '.' :: b ∧ a ++ b ≠ [] ∧
    ∀ c ∈ a ++ b, esDigito c = true)

theorem quitarPrimerPunto_decomp (l : List Char) :
    ('.' ∉ l ∧ quitarPrimerPunto l = l) ∨
    (∃ a b, l = a ++ '.' :: b ∧ '.' ∉ a ∧ quitarPrimerPunto l = a ++ b) := by
  induction l with
  | nil => exact Or.inl ⟨by simp, rfl⟩
  | cons c r ih =>
    by_cases hc : c = '.'
    · subst hc
      exact Or.inr ⟨[], r, rfl, by simp, by simp [quitarPrimerPunto]⟩
    · rcases ih with ⟨hmem, heq⟩ | ⟨a, b, heq, hmem, hq⟩
      · refine Or.inl ⟨?_, by simp [quitarPrimerPunto, hc, heq]⟩
        intro hx
        rcases List.mem_cons.mp hx with hx | hx
        · exact hc hx.symm
        · exact hmem hx
      · refine Or.inr ⟨c :: a, b, by simp [heq], ?_, ?_⟩
        · intro hx
          rcases List.mem_cons.mp hx with hx | hx
          · exact hc hx.symm
          · exact hmem hx
        · simp [quitarPrimerPunto, hc, hq]

theorem esDigito_punto : esDigito '.' = false := by decide

/-- The code's test `valor.replace(".", "", 1).isdigit()` accepts exactly
the numeric-literal shapes of the spec. -/
theorem esNumerico_iff (v : String) : esNumerico v = true ↔ ValorNumerico v := by
  unfold esNumerico ValorNumerico
  simp only [Bool.and_eq_true, Bool.not_eq_true', List.isEmpty_eq_false,
    List.all_eq_true, decide_eq_true_iff]
  rcases quitarPrimerPunto_decomp v.data with ⟨hmem, heq⟩ | ⟨a, b, heq, hmem, hq⟩
  · rw [heq]
    constructor
    · rintro ⟨hne, hdig⟩
      exact Or.inl ⟨hne, hdig⟩
    · rintro (⟨hne, hdig⟩ | ⟨a, b, hab, -, -⟩)
      · exact ⟨hne, hdig⟩
      · exact absurd (hab ▸ List.mem_append_right a (List.mem_cons_self '.' b)) hmem
  · rw [hq]
    constructor
    · rintro ⟨hne, hdig⟩
      exact Or.inr ⟨a, b, heq, hne, hdig⟩
    · rintro (⟨-, hdig⟩ | ⟨a', b', hab, hne', hdig'⟩)
      · exact absurd (hdig '.' (heq ▸ List.mem_append_right a
          (List.mem_cons_self '.' b))) (by simp [esDigito_punto])
      · -- both decompositions split `v.data` at its first dot
        have hsplit : a = a' ∧ b = b' := by
          have h2 : a ++ '.' :: b = a' ++ '.' :: b' := heq ▸ hab
          have hmem' : '.' ∉ a' := fun hx =>
            by simpa [esDigito_punto] using hdig' '.' (List.mem_append_left b' hx)
          clear heq hab hq hdig' hne'
          induction a generalizing a' with
          | nil =>
            cases a' with
            | nil => simpa using h2
            | cons x a' =>
              obtain ⟨rfl, -⟩ : '.' = x ∧ b = a' ++ '.' :: b' := by simpa using h2
              exact absurd (List.mem_cons_self _ _) hmem'
          | cons x a ih =>
            cases a' with
            | nil =>
              obtain ⟨rfl, -⟩ : x = '.' ∧ a ++ '.' :: b = b' := by simpa using h2
              exact absurd (List.mem_cons_self _ _) hmem
            | cons x' a' =>
              obtain ⟨rfl, h3⟩ : x = x' ∧ a ++ '.' :: b = a' ++ '.' :: b' := by
                simpa using h2
              have := ih (fun hx => hmem (List.mem_cons_of_mem _ hx)) a' h3
                (fun hx => hmem' (List.mem_cons_of_mem _ hx))
              exact ⟨by rw [this.1], this.2⟩
        obtain ⟨rfl, rfl⟩ := hsplit
        exact ⟨hne', hdig'⟩

/-- C6: outside the long-form `fecha` case the SQL generator renders a
condition as `<attr> <op> <value>`, unquoted exactly when the value passes
the numeric test (equivalently, when it is a non-negative integer or a
decimal with one dot); in particular `(edad, >, 30)` renders as `edad > 30`
and `(nombre, =, Lucia)` renders as `nombre = 'Lucia'`. -/
theorem c6_literales_sql (cond : Condicion)
    (h : ¬(cond.atributo = "fecha" ∧ coincideFechaLarga cond.valor = true)) :
    renderCondicion cond =
      cond.atributo ++ " " ++ cond.operador ++ " " ++
        (if esNumerico cond.valor then cond.valor
         else "'" ++ cond.valor ++ "'") ∧
    (esNumerico cond.valor = true ↔ ValorNumerico cond.valor) ∧
    renderCondicion ⟨"edad", ">", "30"⟩ = "edad > 30" ∧
    renderCondicion ⟨"nombre", "=", "Lucia"⟩ = "nombre = 'Lucia'" := by
  refine ⟨?_, esNumerico_iff _, rfl, rfl⟩
  unfold renderCondicion
  rw [if_neg h]
  by_cases hn : esNumerico cond.valor = true
  · simp only [hn, if_true, if_pos]
  · simp only [hn, if_false, Bool.false_eq_true]
    rw [show (" '" : String) = " " ++ "'" from rfl]
    simp only [String.append_assoc]

/-- C6 witness: the rendering law applied at `(edad, >, 30)`. -/
theorem c6_literales_sql_testigo :
    renderCondicion ⟨"edad", ">", "30"⟩ =
      "edad" ++ " " ++ ">" ++ " " ++
        (if esNumerico "30" then "30" else "'" ++ "30" ++ "'") :=
  (c6_literales_sql ⟨"edad", ">", "30"⟩ (by decide)).1

/-! ## Sentinel behavior of the SQL generator (C5) -/

theorem select_ne_sentinela (r : String) : "SELECT " ++ r ≠ sentinelaSQL := by
  intro h
  have h3 : (("SELECT " ++ r).data).head? = some 'S' := by
    rw [String.data_append]; rfl
  rw [h] at h3
  exact absurd h3 (by decide)

/-- C5 counterexample: a structured query whose entity is set — to the
empty string — for which the generator still returns the sentinel (Python
truthiness treats `""` like `None`), contradicting "for every structured
query whose entity is set it returns a SELECT statement and never the
sentinel". -/
theorem c5_contraejemplo :
    (Estructura.mk none (some "") [] []).entidad ≠ none ∧
    generar_sql (Estructura.mk none (some "") [] []) = sentinelaSQL :=
  ⟨by decide, rfl⟩

/-- C5 (amended): the generator returns the sentinel exactly on the falsy
entities (`none` or `""`) and never raises (it is total); for a nonempty
entity it returns a string beginning with "SELECT " which is never the
sentinel. -/
theorem c5_generar_sql_entidad (e : Estructura) :
    ((e.entidad = none ∨ e.entidad = some "") → generar_sql e = sentinelaSQL) ∧
    (∀ v, e.entidad = some v → v ≠ "" →
      (∃ r, generar_sql e = "SELECT " ++ r) ∧ generar_sql e ≠ sentinelaSQL) := by
  constructor
  · intro h
    unfold generar_sql
    rw [if_pos h]
  · intro v hv hne
    have hcond : ¬(e.entidad = none ∨ e.entidad = some "") := by
      rintro (h | h) <;> rw [hv] at h
      · exact Option.noConfusion h
      · exact hne (Option.some.inj h)
    have hsel : ∃ r, generar_sql e = "SELECT " ++ r := by
      unfold generar_sql
      rw [if_neg hcond]
      dsimp only
      by_cases ha : e.atributos_mostrar ≠ []
      · rw [if_pos ha]
        by_cases hc : e.condiciones.map renderCondicion ≠ []
        · rw [if_pos hc]
          exact ⟨String.intercalate ", " e.atributos_mostrar ++ " FROM " ++
            e.entidad.getD "" ++ " WHERE " ++
            String.intercalate " AND " (e.condiciones.map renderCondicion), by
              simp only [String.append_assoc]⟩
        · rw [if_neg hc]
          exact ⟨String.intercalate ", " e.atributos_mostrar ++ " FROM " ++
            e.entidad.getD "", by simp only [String.append_assoc]⟩
      · rw [if_neg ha]
        by_cases hc : e.condiciones.map renderCondicion ≠ []
        · rw [if_pos hc]
          exact ⟨"* FROM " ++ e.entidad.getD "" ++ " WHERE " ++
            String.intercalate " AND " (e.condiciones.map renderCondicion), by
              rw [show ("SELECT * FROM " : String) = "SELECT " ++ "* FROM " from rfl]
              simp only [String.append_assoc]⟩
        · rw [if_neg hc]
          exact ⟨"* FROM " ++ e.entidad.getD "", by
            rw [show ("SELECT * FROM " : String) = "SELECT " ++ "* FROM " from rfl]
            simp only [String.append_assoc]⟩
    obtain ⟨r, hr⟩ := hsel
    exact ⟨⟨r, hr⟩, hr ▸ select_ne_sentinela r⟩

/-- C5 witness: the amended law applied at concrete structures. -/
theorem c5_generar_sql_entidad_testigo :
    generar_sql ⟨none, none, [], []⟩ = sentinelaSQL ∧
    ∃ r, generar_sql ⟨none, some "clientes", [], []⟩ = "SELECT " ++ r :=
  ⟨(c5_generar_sql_entidad _).1 (Or.inl rfl),
   ((c5_generar_sql_entidad _).2 "clientes" rfl (by decide)).1⟩

/-! ## Trie: search and insert (C9) -/

theorem buscaPalabra_cons (ch : List (Char × TrieNode)) (e : Bool) (c : Char)
    (cs : List Char) :
    buscaPalabra (.mk ch e) (c :: cs) =
      match buscaHijo c ch with
      | some t => buscaPalabra t cs
      | none => false := rfl

theorem buscaHijo_actualiza_self (c : Char) (x : TrieNode)
    (ch : List (Char × TrieNode)) (h : (buscaHijo c ch).isSome = true) :
    buscaHijo c (actualizaHijo c x ch) = some x := by
  induction ch with
  | nil => simp [buscaHijo] at h
  | cons p r ih =>
    obtain ⟨a, t⟩ := p
    by_cases ha : a = c
    · subst ha
      simp [buscaHijo, actualizaHijo]
    · simp only [buscaHijo, actualizaHijo, if_neg ha] at h ⊢
      exact ih h

theorem buscaHijo_actualiza_ne (c a : Char) (x : TrieNode)
    (ch : List (Char × TrieNode)) (hne : c ≠ a) :
    buscaHijo c (actualizaHijo a x ch) = buscaHijo c ch := by
  induction ch with
  | nil => rfl
  | cons p r ih =>
    obtain ⟨b, t⟩ := p
    by_cases hb : b = a
    · subst hb
      simp only [actualizaHijo, if_pos rfl, buscaHijo]
      rw [if_neg (fun h : b = c => hne h.symm), if_neg (fun h : b = c => hne h.symm)]
    · simp only [actualizaHijo, if_neg hb, buscaHijo]
      by_cases hbc : b = c
      · rw [if_pos hbc, if_pos hbc]
      · rw [if_neg hbc, if_neg hbc]
        exact ih

theorem buscaHijo_append_none (c : Char) (ch l : List (Char × TrieNode))
    (h : buscaHijo c ch = none) : buscaHijo c (ch ++ l) = buscaHijo c l := by
  induction ch with
  | nil => rfl
  | cons p r ih =>
    obtain ⟨a, t⟩ := p
    simp only [buscaHijo] at h ⊢
    by_cases ha : a = c
    · rw [if_pos ha] at h
      exact Option.noConfusion h
    · rw [if_neg ha] at h ⊢
      exact ih h

theorem buscaHijo_append_some (c : Char) (ch l : List (Char × TrieNode))
    (t : TrieNode) (h : buscaHijo c ch = some t) :
    buscaHijo c (ch ++ l) = some t := by
  induction ch with
  | nil => exact Option.noConfusion h
  | cons p r ih =>
    obtain ⟨a, t'⟩ := p
    simp only [buscaHijo] at h ⊢
    by_cases ha : a = c
    · rw [if_pos ha] at h ⊢
      exact h
    · rw [if_neg ha] at h ⊢
      exact ih h

theorem busca_vacio (w : List Char) : buscaPalabra TrieNode.vacio w = false := by
  cases w <;> rfl

/-- A word is found right after it is inserted. -/
theorem busca_inserta_self (w : List Char) :
    ∀ t : TrieNode, buscaPalabra (inserta w t) w = true := by
  induction w with
  | nil => rintro ⟨ch, e⟩; rfl
  | cons c cs ih =>
    rintro ⟨ch, e⟩
    show buscaPalabra
      (match buscaHijo c ch with
       | some t => .mk (actualizaHijo c (inserta cs t) ch) e
       | none => .mk (ch ++ [(c, inserta cs TrieNode.vacio)]) e) (c :: cs) = true
    cases hb : buscaHijo c ch with
    | some t' =>
      rw [buscaPalabra_cons,
        buscaHijo_actualiza_self c _ ch (by rw [hb]; rfl)]
      exact ih t'
    | none =>
      rw [buscaPalabra_cons, buscaHijo_append_none c ch _ hb]
      show (match buscaHijo c [(c, inserta cs TrieNode.vacio)] with
        | some t => buscaPalabra t cs
        | none => false) = true
      rw [show buscaHijo c [(c, inserta cs TrieNode.vacio)] =
        some (inserta cs TrieNode.vacio) from by simp [buscaHijo]]
      exact ih TrieNode.vacio

/-- Insertion preserves every word already contained. -/
theorem busca_inserta_mono (v : List Char) :
    ∀ (w : List Char) (t : TrieNode), buscaPalabra t w = true →
      buscaPalabra (inserta v t) w = true := by
  induction v with
  | nil =>
    rintro w ⟨ch, e⟩ h
    cases w with
    | nil => rfl
    | cons c cs => exact h
  | cons a as ih =>
    rintro w ⟨ch, e⟩ h
    show buscaPalabra
      (match buscaHijo a ch with
       | some t => .mk (actualizaHijo a (inserta as t) ch) e
       | none => .mk (ch ++ [(a, inserta as TrieNode.vacio)]) e) w = true
    cases hb : buscaHijo a ch with
    | some ta =>
      cases w with
      | nil => exact h
      | cons c cs =>
        rw [buscaPalabra_cons] at h ⊢
        cases hc : buscaHijo c ch with
        | none => rw [hc] at h; exact Bool.noConfusion h
        | some tc =>
          rw [hc] at h
          by_cases hca : c = a
          · subst hca
            rw [hb] at hc
            obtain rfl := Option.some.inj hc
            rw [buscaHijo_actualiza_self c _ ch (by rw [hb]; rfl)]
            exact ih cs ta h
          · rw [buscaHijo_actualiza_ne c a _ ch hca, hc]
            exact h
    | none =>
      cases w with
      | nil => exact h
      | cons c cs =>
        rw [buscaPalabra_cons] at h ⊢
        cases hc : buscaHijo c ch with
        | none => rw [hc] at h; exact Bool.noConfusion h
        | some tc =>
          rw [hc] at h
          rw [buscaHijo_append_some c ch _ tc hc]
          exact h

/-- Insertion adds exactly the inserted word. -/
theorem busca_inserta_solo (v : List Char) :
    ∀ (w : List Char) (t : TrieNode), buscaPalabra (inserta v t) w = true →
      buscaPalabra t w = true ∨ w = v := by
  induction v with
  | nil =>
    rintro w ⟨ch, e⟩ h
    cases w with
    | nil => exact Or.inr rfl
    | cons c cs => exact Or.inl h
  | cons a as ih =>
    rintro w ⟨ch, e⟩ h
    rw [show inserta (a :: as) (.mk ch e) =
      (match buscaHijo a ch with
       | some t => .mk (actualizaHijo a (inserta as t) ch) e
       | none => .mk (ch ++ [(a, inserta as TrieNode.vacio)]) e) from rfl] at h
    cases hb : buscaHijo a ch with
    | some ta =>
      rw [hb] at h
      cases w with
      | nil => exact Or.inl h
      | cons c cs =>
        rw [buscaPalabra_cons] at h ⊢
        by_cases hca : c = a
        · subst hca
          rw [buscaHijo_actualiza_self c _ ch (by rw [hb]; rfl)] at h
          rcases ih cs ta h with h' | rfl
          · rw [hb]
            exact Or.inl h'
          · exact Or.inr rfl
        · rw [buscaHijo_actualiza_ne c a _ ch hca] at h
          exact Or.inl h
    | none =>
      rw [hb] at h
      cases w with
      | nil => exact Or.inl h
      | cons c cs =>
        rw [buscaPalabra_cons] at h ⊢
        by_cases hca : c = a
        · subst hca
          rw [buscaHijo_append_none c ch _ hb,
            show buscaHijo c [(c, inserta as TrieNode.vacio)] =
              some (inserta as TrieNode.vacio) from by simp [buscaHijo]] at h
          rcases ih cs TrieNode.vacio h with h' | rfl
          · rw [busca_vacio] at h'
            exact Bool.noConfusion h'
          · exact Or.inr rfl
        · cases hc : buscaHijo c ch with
          | none =>
            rw [buscaHijo_append_none c ch _ hc,
              show buscaHijo c [(a, inserta as TrieNode.vacio)] = none from by
                simp only [buscaHijo]
                rw [if_neg (fun h : a = c => hca h.symm)]] at h
            exact Bool.noConfusion h
          | some tc =>
            rw [buscaHijo_append_some c ch _ tc hc] at h
            exact Or.inl h

/-- C9: a word is contained immediately after its insertion, and remains
contained after any further sequence of insertions. -/
theorem c9_trie_contiene_invariante (tr : Trie) (w : String) (l : List String) :
    (tr.insert w).search w = true ∧
    (insertaTodas l (tr.insert w)).search w = true := by
  refine ⟨busca_inserta_self w.data tr, ?_⟩
  have base : (tr.insert w).search w = true := busca_inserta_self w.data tr
  unfold insertaTodas
  generalize tr.insert w = t0 at base ⊢
  induction l generalizing t0 with
  | nil => exact base
  | cons v r ih =>
    exact ih (t0.insert v) (busca_inserta_mono v.data w.data t0 base)

/-! ## Trie: enumeration (C8) -/

/-- Structural induction for the nested `TrieNode` type. -/
theorem TrieNode.induccion {P : TrieNode → Prop}
    (h : ∀ (ch : List (Char × TrieNode)) (e : Bool),
      (∀ p ∈ ch, P p.2) → P (.mk ch e)) : ∀ t, P t := by
  have paso : ∀ (n : Nat) (t : TrieNode), sizeOf t ≤ n → P t := by
    intro n
    induction n with
    | zero =>
      rintro ⟨ch, e⟩ ht
      simp at ht
    | succ n ih =>
      rintro ⟨ch, e⟩ ht
      apply h
      intro p hp
      apply ih
      have h1 := List.sizeOf_lt_of_mem hp
      have h2 : sizeOf p.2 < sizeOf p := by
        obtain ⟨c, t'⟩ := p
        simp
      have h3 : sizeOf ch < sizeOf (TrieNode.mk ch e) := by simp; omega
      simp only [TrieNode.mk.sizeOf_spec] at ht
      omega
  exact fun t => paso (sizeOf t) t le_rfl

/-- Key list without repetitions (Boolean `Nodup`). -/
def clavesUnicas : List Char → Bool
  | [] => true
  | c :: r => !r.contains c && clavesUnicas r

mutual
/-- Well-formedness: every node's child map has pairwise-distinct keys, as
Python dicts guarantee structurally. -/
def buenNodo : TrieNode → Bool
  | .mk ch _ => clavesUnicas (ch.map Prod.fst) && buenHijos ch
def buenHijos : List (Char × TrieNode) → Bool
  | [] => true
  | (_, t) :: r => buenNodo t && buenHijos r
end

theorem buenHijos_iff (ch : List (Char × TrieNode)) :
    buenHijos ch = true ↔ ∀ p ∈ ch, buenNodo p.2 = true := by
  induction ch with
  | nil => simp [buenHijos]
  | cons p r ih =>
    obtain ⟨c, t⟩ := p
    simp [buenHijos, Bool.and_eq_true, ih]

theorem buen_mk_iff (ch : List (Char × TrieNode)) (e : Bool) :
    buenNodo (.mk ch e) = true ↔
      clavesUnicas (ch.map Prod.fst) = true ∧ ∀ p ∈ ch, buenNodo p.2 = true := by
  show (clavesUnicas (ch.map Prod.fst) && buenHijos ch) = true ↔ _
  rw [Bool.and_eq_true, buenHijos_iff]

theorem buscaHijo_none_iff (c : Char) (ch : List (Char × TrieNode)) :
    buscaHijo c ch = none ↔ (ch.map Prod.fst).contains c = false := by
  induction ch with
  | nil => simp [buscaHijo]
  | cons p r ih =>
    obtain ⟨a, t⟩ := p
    simp only [buscaHijo, List.map_cons, List.contains_cons]
    by_cases ha : a = c
    · subst ha
      simp
    · rw [if_neg ha]
      simp only [ih, Bool.or_eq_false_iff]
      constructor
      · intro h
        exact ⟨beq_eq_false_iff_ne.mpr (fun hx => ha hx.symm), h⟩
      · rintro ⟨-, h⟩
        exact h

theorem buscaHijo_some_mem (c : Char) (ch : List (Char × TrieNode))
    (t : TrieNode) (h : buscaHijo c ch = some t) : (c, t) ∈ ch := by
  induction ch with
  | nil => exact Option.noConfusion h
  | cons p r ih =>
    obtain ⟨a, t'⟩ := p
    simp only [buscaHijo] at h
    by_cases ha : a = c
    · rw [if_pos ha] at h
      obtain rfl := Option.some.inj h
      subst ha
      exact List.mem_cons_self _ _
    · rw [if_neg ha] at h
      exact List.mem_cons_of_mem _ (ih h)

theorem mem_buscaHijo (c : Char) (ch : List (Char × TrieNode)) (t : TrieNode)
    (hnd : clavesUnicas (ch.map Prod.fst) = true) (hm : (c, t) ∈ ch) :
    buscaHijo c ch = some t := by
  induction ch with
  | nil => simp at hm
  | cons p r ih =>
    obtain ⟨a, t'⟩ := p
    have hnd' : (r.map Prod.fst).contains a = false ∧
        clavesUnicas (r.map Prod.fst) = true := by
      simpa [clavesUnicas, Bool.and_eq_true] using hnd
    rcases List.mem_cons.mp hm with heq | hmem
    · obtain ⟨rfl, rfl⟩ : c = a ∧ t = t' := by simpa using heq
      simp [buscaHijo]
    · by_cases ha : a = c
      · subst ha
        have hc : a ∈ r.map Prod.fst := List.mem_map_of_mem Prod.fst hmem
        have hc2 : a ∉ r.map Prod.fst := by simpa using hnd'.1
        exact absurd hc hc2
      · simp only [buscaHijo, if_neg ha]
        exact ih hnd'.2 hmem

theorem clavesUnicas_iff (l : List Char) : clavesUnicas l = true ↔ l.Nodup := by
  induction l with
  | nil => simp [clavesUnicas]
  | cons c r ih =>
    simp [clavesUnicas, Bool.and_eq_true, Bool.not_eq_true', ih, List.nodup_cons]

theorem palabrasDesde_mk (ch : List (Char × TrieNode)) (e : Bool)
    (pre : List Char) :
    palabrasDesde (.mk ch e) pre =
      (if e then [pre] else []) ++ palabrasHijos ch pre := rfl

theorem buscaPalabra_nil (ch : List (Char × TrieNode)) (e : Bool) :
    buscaPalabra (.mk ch e) [] = e := rfl

theorem palabrasHijos_decomp (ch : List (Char × TrieNode)) (pre w : List Char) :
    w ∈ palabrasHijos ch pre ↔
      ∃ p ∈ ch, w ∈ palabrasDesde p.2 (pre ++ [p.1]) := by
  induction ch with
  | nil => simp [palabrasHijos]
  | cons p r ih =>
    obtain ⟨c, t⟩ := p
    show w ∈ palabrasDesde t (pre ++ [c]) ++ palabrasHijos r pre ↔ _
    simp only [List.mem_append, ih, List.mem_cons]
    constructor
    · rintro (h | ⟨q, hq, hw⟩)
      · exact ⟨(c, t), Or.inl rfl, h⟩
      · exact ⟨q, Or.inr hq, hw⟩
    · rintro ⟨q, (rfl | hq), hw⟩
      · exact Or.inl hw
      · exact Or.inr ⟨q, hq, hw⟩

/-- Every enumerated word extends the prefix it was enumerated under. -/
theorem palabras_prefijo (t : TrieNode) : ∀ (pre w : List Char),
    w ∈ palabrasDesde t pre → ∃ s, w = pre ++ s := by
  induction t using TrieNode.induccion with
  | _ ch e ih =>
    intro pre w hw
    rw [palabrasDesde_mk, List.mem_append] at hw
    rcases hw with hw | hw
    · cases e with
      | false => simp at hw
      | true =>
        obtain rfl := List.mem_singleton.mp hw
        exact ⟨[], by simp⟩
    · obtain ⟨p, hp, hw⟩ := (palabrasHijos_decomp ch pre w).mp hw
      obtain ⟨s, rfl⟩ := ih p hp (pre ++ [p.1]) w hw
      exact ⟨p.1 :: s, by simp⟩

/-- On a well-formed trie, enumeration under a prefix lists exactly the
extensions of the prefix by a contained word. -/
theorem mem_palabrasDesde (t : TrieNode) : ∀ (pre w : List Char),
    buenNodo t = true →
    (w ∈ palabrasDesde t pre ↔
      ∃ s, w = pre ++ s ∧ buscaPalabra t s = true) := by
  induction t using TrieNode.induccion with
  | _ ch e ih =>
    intro pre w hbuen
    obtain ⟨hnd, hch⟩ := (buen_mk_iff ch e).mp hbuen
    rw [palabrasDesde_mk, List.mem_append, palabrasHijos_decomp]
    constructor
    · rintro (hw | ⟨p, hp, hw⟩)
      · have he : e = true ∧ w = pre := by
          cases e with
          | false => simp at hw
          | true => exact ⟨rfl, List.mem_singleton.mp hw⟩
        exact ⟨[], by simp [he.2], by rw [buscaPalabra_nil, he.1]⟩
      · obtain ⟨s, hs, hb⟩ := (ih p hp (pre ++ [p.1]) w (hch p hp)).mp hw
        refine ⟨p.1 :: s, by simp [hs], ?_⟩
        rw [buscaPalabra_cons,
          mem_buscaHijo p.1 ch p.2 hnd (by rwa [Prod.mk.eta])]
        exact hb
    · rintro ⟨s, rfl, hb⟩
      cases s with
      | nil =>
        left
        rw [buscaPalabra_nil] at hb
        simp [hb]
      | cons c s' =>
        right
        rw [buscaPalabra_cons] at hb
        cases hc : buscaHijo c ch with
        | none =>
          rw [hc] at hb
          exact Bool.noConfusion hb
        | some t' =>
          rw [hc] at hb
          have hmem := buscaHijo_some_mem c ch t' hc
          refine ⟨(c, t'), hmem, ?_⟩
          rw [ih (c, t') hmem (pre ++ [c]) _ (hch _ hmem)]
          exact ⟨s', by simp, hb⟩

theorem nodup_palabrasHijos (ch : List (Char × TrieNode)) (pre : List Char)
    (hnd : clavesUnicas (ch.map Prod.fst) = true)
    (ihAll : ∀ p ∈ ch, ∀ pre', (palabrasDesde p.2 pre').Nodup) :
    (palabrasHijos ch pre).Nodup := by
  induction ch with
  | nil => simp [palabrasHijos]
  | cons p r ih =>
    obtain ⟨c, t⟩ := p
    have hnd' : ((r.map Prod.fst).contains c = false) ∧
        clavesUnicas (r.map Prod.fst) = true := by
      simpa [clavesUnicas, Bool.and_eq_true] using hnd
    show (palabrasDesde t (pre ++ [c]) ++ palabrasHijos r pre).Nodup
    apply List.Nodup.append
    · exact ihAll (c, t) (List.mem_cons_self _ _) _
    · exact ih hnd'.2 (fun q hq => ihAll q (List.mem_cons_of_mem _ hq))
    · intro w hw1 hw2
      obtain ⟨s1, rfl⟩ := palabras_prefijo t (pre ++ [c]) w hw1
      obtain ⟨q, hq, hwq⟩ := (palabrasHijos_decomp r pre _).mp hw2
      obtain ⟨s2, heq2⟩ := palabras_prefijo q.2 (pre ++ [q.1]) _ hwq
      have hck : c :: s1 = q.1 :: s2 := by
        have h' : pre ++ (c :: s1) = pre ++ (q.1 :: s2) := by
          simpa [List.append_assoc] using heq2
        exact List.append_cancel_left h'
      have hc : c = q.1 := (List.cons.injEq _ _ _ _ ▸ hck).1
      have hmem : q.1 ∈ r.map Prod.fst := List.mem_map_of_mem Prod.fst hq
      rw [← hc] at hmem
      have : c ∉ r.map Prod.fst := by simpa using hnd'.1
      exact this hmem

theorem nodup_palabrasDesde (t : TrieNode) : ∀ pre, buenNodo t = true →
    (palabrasDesde t pre).Nodup := by
  induction t using TrieNode.induccion with
  | _ ch e ih =>
    intro pre hbuen
    obtain ⟨hnd, hch⟩ := (buen_mk_iff ch e).mp hbuen
    rw [palabrasDesde_mk]
    have hh : (palabrasHijos ch pre).Nodup :=
      nodup_palabrasHijos ch pre hnd (fun p hp pre' => ih p hp pre' (hch p hp))
    cases e with
    | false => simpa using hh
    | true =>
      show (pre :: palabrasHijos ch pre).Nodup
      rw [List.nodup_cons]
      refine ⟨?_, hh⟩
      intro hmem
      obtain ⟨q, hq, hwq⟩ := (palabrasHijos_decomp ch pre pre).mp hmem
      obtain ⟨s, heq⟩ := palabras_prefijo q.2 (pre ++ [q.1]) pre hwq
      have := congrArg List.length heq
      simp [List.length_append] at this

theorem actualizaHijo_map_fst (c : Char) (x : TrieNode)
    (ch : List (Char × TrieNode)) :
    (actualizaHijo c x ch).map Prod.fst = ch.map Prod.fst := by
  induction ch with
  | nil => rfl
  | cons p r ih =>
    obtain ⟨a, t⟩ := p
    by_cases ha : a = c
    · simp [actualizaHijo, ha]
    · simp [actualizaHijo, ha, ih]

theorem buenHijos_actualiza (ch : List (Char × TrieNode)) (c : Char)
    (x : TrieNode) (hch : ∀ p ∈ ch, buenNodo p.2 = true)
    (hx : buenNodo x = true) :
    ∀ p ∈ actualizaHijo c x ch, buenNodo p.2 = true := by
  induction ch with
  | nil => simp [actualizaHijo]
  | cons p r ih =>
    obtain ⟨a, t⟩ := p
    by_cases ha : a = c
    · simp only [actualizaHijo, if_pos ha]
      rintro q hq
      rcases List.mem_cons.mp hq with rfl | hq
      · exact hx
      · exact hch q (List.mem_cons_of_mem _ hq)
    · simp only [actualizaHijo, if_neg ha]
      rintro q hq
      rcases List.mem_cons.mp hq with rfl | hq
      · exact hch _ (List.mem_cons_self _ _)
      · exact ih (fun p hp => hch p (List.mem_cons_of_mem _ hp)) q hq

theorem buen_vacio : buenNodo TrieNode.vacio = true := rfl

/-- Insertion preserves well-formedness of the child maps. -/
theorem buen_inserta (w : List Char) :
    ∀ t, buenNodo t = true → buenNodo (inserta w t) = true := by
  induction w with
  | nil =>
    rintro ⟨ch, e⟩ h
    exact (buen_mk_iff ch true).mpr ((buen_mk_iff ch e).mp h)
  | cons c cs ih =>
    rintro ⟨ch, e⟩ h
    obtain ⟨hnd, hch⟩ := (buen_mk_iff ch e).mp h
    show buenNodo
      (match buscaHijo c ch with
       | some t => .mk (actualizaHijo c (inserta cs t) ch) e
       | none => .mk (ch ++ [(c, inserta cs TrieNode.vacio)]) e) = true
    cases hb : buscaHijo c ch with
    | some t' =>
      apply (buen_mk_iff _ e).mpr
      refine ⟨by rw [actualizaHijo_map_fst]; exact hnd, ?_⟩
      exact buenHijos_actualiza ch c _ hch
        (ih t' (hch (c, t') (buscaHijo_some_mem c ch t' hb)))
    | none =>
      apply (buen_mk_iff _ e).mpr
      constructor
      · rw [List.map_append, clavesUnicas_iff]
        have h1 : (ch.map Prod.fst).Nodup := (clavesUnicas_iff _).mp hnd
        have h2 : c ∉ ch.map Prod.fst := by
          simpa using (buscaHijo_none_iff c ch).mp hb
        simp [List.nodup_append, h1, h2]
      · intro p hp
        rcases List.mem_append.mp hp with hp | hp
        · exact hch p hp
        · obtain rfl := List.mem_singleton.mp hp
          exact ih TrieNode.vacio buen_vacio

theorem buen_insertaTodas (l : List String) :
    ∀ tr : Trie, buenNodo tr = true → buenNodo (insertaTodas l tr) = true := by
  induction l with
  | nil => exact fun tr h => h
  | cons v r ih => exact fun tr h => ih (tr.insert v) (buen_inserta v.data tr h)

theorem search_insert_iff (tr : Trie) (v w : String) :
    (tr.insert v).search w = true ↔ tr.search w = true ∨ w = v := by
  constructor
  · intro h
    rcases busca_inserta_solo v.data w.data tr h with h' | h'
    · exact Or.inl h'
    · exact Or.inr (String.ext h')
  · rintro (h | rfl)
    · exact busca_inserta_mono v.data w.data tr h
    · exact busca_inserta_self w.data tr

theorem search_insertaTodas (l : List String) : ∀ (tr : Trie) (w : String),
    (insertaTodas l tr).search w = true ↔ tr.search w = true ∨ w ∈ l := by
  induction l with
  | nil => intro tr w; simp [insertaTodas]
  | cons v r ih =>
    intro tr w
    show (insertaTodas r (tr.insert v)).search w = true ↔ _
    rw [ih, search_insert_iff]
    simp only [List.mem_cons]
    tauto

/-- C8: inserting distinct words into a fresh Trie and enumerating yields
exactly that set of words, without duplicates. -/
theorem c8_trie_enumeracion (l : List String) (hnd : l.Nodup) :
    ((insertaTodas l Trie.nuevo).get_all_words).Nodup ∧
    ∀ w, w ∈ (insertaTodas l Trie.nuevo).get_all_words ↔ w ∈ l := by
  have hbuen : buenNodo (insertaTodas l Trie.nuevo) = true :=
    buen_insertaTodas l Trie.nuevo buen_vacio
  constructor
  · apply List.Nodup.map
    · exact fun a b h => show a = b from congrArg String.data h
    · exact nodup_palabrasDesde _ [] hbuen
  · intro w
    show w ∈ (palabrasDesde (insertaTodas l Trie.nuevo) []).map String.mk ↔ _
    rw [List.mem_map]
    constructor
    · rintro ⟨dl, hdl, rfl⟩
      obtain ⟨s, hds, hb⟩ := (mem_palabrasDesde _ [] dl hbuen).mp hdl
      have hdls : dl = s := by simpa using hds
      have hsearch : (insertaTodas l Trie.nuevo).search (String.mk dl) = true := by
        show buscaPalabra _ dl = true
        rw [hdls]
        exact hb
      rw [search_insertaTodas] at hsearch
      rcases hsearch with h | h
      · have hv : Trie.nuevo.search (String.mk dl) = false := busca_vacio _
        rw [hv] at h
        exact Bool.noConfusion h
      · exact h
    · intro hw
      have hsearch : (insertaTodas l Trie.nuevo).search w = true := by
        rw [search_insertaTodas]
        exact Or.inr hw
      have hmem := (mem_palabrasDesde _ [] w.data hbuen).mpr
        ⟨w.data, by simp, hsearch⟩
      exact ⟨w.data, hmem, String.ext rfl⟩

/-- C8 witness: the enumeration law applied to a concrete word list. -/
theorem c8_trie_enumeracion_testigo :
    ((insertaTodas ["clientes", "edad"] Trie.nuevo).get_all_words).Nodup ∧
    ("edad" ∈ (insertaTodas ["clientes", "edad"] Trie.nuevo).get_all_words ↔
      "edad" ∈ (["clientes", "edad"] : List String)) :=
  ⟨(c8_trie_enumeracion ["clientes", "edad"] (by decide)).1,
   (c8_trie_enumeracion ["clientes", "edad"] (by decide)).2 "edad"⟩

/-! ## Parser cursor progress, bounds safety and termination (C7) -/

/-- The connector scan never goes out of bounds and never moves the scan
position backwards. -/
theorem scanConectorAux_avanza (fuel : Nat) : ∀ (tokens : List Token) (j : Nat)
    (conds : List Condicion),
    ∃ r, scanConectorAux fuel tokens j conds = some r ∧ j ≤ r.1 := by
  induction fuel with
  | zero => exact fun tokens j conds => ⟨(j, conds), rfl, le_rfl⟩
  | succ fuel ih =>
    intro tokens j conds
    unfold scanConectorAux
    by_cases hj : j < tokens.length - 2
    · rw [if_pos hj]
      rw [List.getElem?_eq_getElem (show j < tokens.length by omega),
        List.getElem?_eq_getElem (show j + 1 < tokens.length by omega),
        List.getElem?_eq_getElem (show j + 2 < tokens.length by omega)]
      simp only [Option.bind_eq_bind, Option.some_bind]
      split
      · split
        · rename_i hop
          rw [List.getElem?_eq_getElem (show j + 3 < tokens.length by omega)]
          simp only [Option.bind_eq_bind, Option.some_bind]
          obtain ⟨r, hr, hle⟩ := ih tokens (j + 4) (conds ++ [_])
          exact ⟨r, hr, by omega⟩
        · obtain ⟨r, hr, hle⟩ := ih tokens (j + 1) conds
          exact ⟨r, hr, by omega⟩
      · obtain ⟨r, hr, hle⟩ := ih tokens (j + 1) conds
        exact ⟨r, hr, by omega⟩
    · rw [if_neg hj]
      exact ⟨(j, conds), rfl, le_rfl⟩

/-- When the join loop finds a date it has consumed at least one token. -/
theorem unirFechaAux_consumidos (l : List Token) :
    ∀ (partes : List String) (consumidos : Nat) (f : String) (n : Nat),
    unirFechaAux l partes consumidos = (some f, n) → consumidos < n := by
  induction l with
  | nil =>
    intro _ _ _ _ h
    simp [unirFechaAux] at h
  | cons t r ih =>
    intro partes consumidos f n h
    unfold unirFechaAux at h
    by_cases hf : es_fecha (unirEspacios (partes ++ [t.valor])) = true
    · simp only [hf, if_true] at h
      obtain ⟨-, rfl⟩ := Prod.mk.injEq .. ▸ h
      omega
    · simp only [hf, Bool.false_eq_true, if_false] at h
      exact Nat.lt_of_succ_lt (ih _ _ _ _ h)

theorem unir_fecha_saltos (tokens : List Token) (inicio : Nat) (f : String)
    (n : Nat) (h : unir_fecha tokens inicio = (some f, n)) : 1 ≤ n :=
  unirFechaAux_consumidos _ _ _ _ _ h

theorem cadenaLlama_avanza (tokens : List Token) (i : Nat) (e : Estructura)
    (t : Token) (hi : i < tokens.length) :
    ∃ r, cadenaLlama tokens i e t = some r ∧ i < r.1 := by
  unfold cadenaLlama
  split
  · rw [List.getElem?_eq_getElem (show i - 1 < tokens.length by omega)]
    simp only [Option.bind_eq_bind, Option.some_bind, Option.pure_def]
    split
    · split
      · rename_i hP
        rw [List.getElem?_eq_getElem (show i - 3 < tokens.length by omega)]
        simp only [Option.bind_eq_bind, Option.some_bind, Option.pure_def]
        split
        · exact ⟨_, rfl, by omega⟩
        · exact ⟨_, rfl, by omega⟩
      · split
        · exact ⟨_, rfl, by omega⟩
        · exact ⟨_, rfl, by omega⟩
    · exact ⟨_, rfl, by omega⟩
  · exact ⟨_, rfl, by omega⟩

theorem cadenaLlamado_avanza (tokens : List Token) (i : Nat) (e : Estructura)
    (t : Token) (hi : i < tokens.length) :
    ∃ r, cadenaLlamado tokens i e t = some r ∧ i < r.1 := by
  unfold cadenaLlamado
  split
  · rw [List.getElem?_eq_getElem (show i - 1 < tokens.length by omega)]
    simp only [Option.bind_eq_bind, Option.some_bind, Option.pure_def]
    split
    · split
      · exact ⟨_, rfl, by omega⟩
      · exact ⟨_, rfl, by omega⟩
    · exact cadenaLlama_avanza tokens i e t hi
  · exact cadenaLlama_avanza tokens i e t hi

theorem cadenaDe_avanza (tokens : List Token) (i : Nat) (e : Estructura)
    (t : Token) (hi : i < tokens.length) :
    ∃ r, cadenaDe tokens i e t = some r ∧ i < r.1 := by
  unfold cadenaDe
  split
  · rw [List.getElem?_eq_getElem (show i - 1 < tokens.length by omega)]
    simp only [Option.bind_eq_bind, Option.some_bind, Option.pure_def]
    split
    · split
      · exact ⟨_, rfl, by omega⟩
      · split
        · split
          · exact ⟨_, rfl, by omega⟩
          · exact ⟨_, rfl, by omega⟩
        · exact ⟨_, rfl, by omega⟩
    · exact cadenaLlamado_avanza tokens i e t hi
  · exact cadenaLlamado_avanza tokens i e t hi

theorem pasoCadena_avanza (tokens : List Token) (i : Nat) (e : Estructura)
    (t : Token) (hi : i < tokens.length) :
    ∃ r, pasoCadena tokens i e t = some r ∧ i < r.1 := by
  unfold pasoCadena
  split
  · exact ⟨_, rfl, by omega⟩
  · split
    · split
      · split
        · exact ⟨_, rfl, by omega⟩
        · exact ⟨_, rfl, by omega⟩
      · exact ⟨_, rfl, by omega⟩
    · split
      · split
        · exact ⟨_, rfl, by omega⟩
        · split
          · exact ⟨_, rfl, by omega⟩
          · exact ⟨_, rfl, by omega⟩
      · split
        · obtain ⟨⟨j, conds⟩, hr, hle⟩ :=
            scanConectorAux_avanza (tokens.length + 1) tokens (i + 1) e.condiciones
          rw [show scanConector tokens (i + 1) e.condiciones = some (j, conds)
            from hr]
          simp only [Option.bind_eq_bind, Option.some_bind, Option.pure_def]
          exact ⟨_, rfl, by omega⟩
        · split
          · rename_i hcon
            rw [List.getElem?_eq_getElem (show i + 1 < tokens.length by omega),
              List.getElem?_eq_getElem (show i + 2 < tokens.length by omega),
              List.getElem?_eq_getElem (show i + 3 < tokens.length by omega),
              List.getElem?_eq_getElem (show i + 4 < tokens.length by omega)]
            simp only [Option.bind_eq_bind, Option.some_bind, Option.pure_def]
            split
            · exact ⟨_, rfl, by omega⟩
            · exact ⟨_, rfl, by omega⟩
          · exact cadenaDe_avanza tokens i e t hi

theorem pasoSintactico_avanza (tokens : List Token) (i : Nat) (e : Estructura)
    (hi : i < tokens.length) :
    ∃ r, pasoSintactico tokens i e = some r ∧ i < r.1 := by
  unfold pasoSintactico
  rw [List.getElem?_eq_getElem hi]
  simp only [Option.bind_eq_bind, Option.some_bind, Option.pure_def]
  split
  · exact ⟨_, rfl, by omega⟩
  · split
    · rw [List.getElem?_eq_getElem (show i - 1 < tokens.length by omega)]
      simp only [Option.bind_eq_bind, Option.some_bind, Option.pure_def]
      split
      · split
        · rename_i fecha saltos heq
          have := unir_fecha_saltos tokens (i - 1) fecha saltos heq
          exact ⟨_, rfl, by omega⟩
        · exact pasoCadena_avanza tokens i e _ hi
      · exact pasoCadena_avanza tokens i e _ hi
    · exact pasoCadena_avanza tokens i e _ hi

theorem analisisAux_some (fuel : Nat) :
    ∀ (tokens : List Token) (i : Nat) (e : Estructura),
    ∃ r, analisisAux fuel tokens i e = some r := by
  induction fuel with
  | zero => exact fun _ _ e => ⟨e, rfl⟩
  | succ fuel ih =>
    intro tokens i e
    unfold analisisAux
    by_cases hi : i < tokens.length
    · rw [if_pos hi]
      obtain ⟨⟨i', e'⟩, hp, -⟩ := pasoSintactico_avanza tokens i e hi
      rw [hp]
      exact ih tokens i' e'
    · rw [if_neg hi]
      exact ⟨e, rfl⟩

theorem analisisAux_estable (f1 : Nat) :
    ∀ (f2 : Nat) (tokens : List Token) (i : Nat) (e : Estructura),
    tokens.length - i ≤ f1 → tokens.length - i ≤ f2 →
    analisisAux f1 tokens i e = analisisAux f2 tokens i e := by
  induction f1 with
  | zero =>
    intro f2 tokens i e h1 h2
    have hge : ¬ i < tokens.length := by omega
    cases f2 with
    | zero => rfl
    | succ f2 =>
      show some e = analisisAux (f2 + 1) tokens i e
      unfold analisisAux
      rw [if_neg hge]
  | succ f1 ih =>
    intro f2 tokens i e h1 h2
    by_cases hi : i < tokens.length
    · cases f2 with
      | zero => omega
      | succ f2 =>
        unfold analisisAux
        rw [if_pos hi, if_pos hi]
        obtain ⟨⟨i', e'⟩, hp, hlt⟩ := pasoSintactico_avanza tokens i e hi
        rw [hp]
        exact ih f2 tokens i' e' (by omega) (by omega)
    · cases f2 with
      | zero =>
        show analisisAux (f1 + 1) tokens i e = some e
        unfold analisisAux
        rw [if_neg hi]
      | succ f2 =>
        unfold analisisAux
        rw [if_neg hi, if_neg hi]

/-- C7: on every iteration of the parser loop the cursor strictly
increases (in the connector branch it jumps to the forward scan's ending
position, which lies beyond the cursor), every token access of an
iteration stays in bounds (the step never fails), the whole parse always
yields a structure, and the loop is insensitive to extra fuel — it
terminates within `tokens.length` iterations. -/
theorem c7_parser_avanza_y_termina (tokens : List Token) :
    (∀ (i : Nat) (e : Estructura), i < tokens.length →
      ∃ r, pasoSintactico tokens i e = some r ∧ i < r.1) ∧
    (∃ eF, analisis_sintactico tokens = some eF) ∧
    (∀ extra, analisisAux (tokens.length + 1 + extra) tokens 0 estructuraVacia =
      analisis_sintactico tokens) := by
  refine ⟨fun i e hi => pasoSintactico_avanza tokens i e hi,
    analisisAux_some _ tokens 0 estructuraVacia, fun extra => ?_⟩
  show _ = analisisAux (tokens.length + 1) tokens 0 estructuraVacia
  exact analisisAux_estable _ _ tokens 0 estructuraVacia (by omega) (by omega)

/-- C7 witness: the step law applied to a concrete token sequence. -/
theorem c7_parser_avanza_y_termina_testigo :
    ∃ r, pasoSintactico [⟨"PALABRA", "clientes"⟩] 0 estructuraVacia = some r ∧
      0 < r.1 :=
  (c7_parser_avanza_y_termina [⟨"PALABRA", "clientes"⟩]).1 0 estructuraVacia
    (by decide)

/-! ## Corrector without revisions (C10) -/

/-- C10: when the entity, every shown attribute and every condition
attribute are found by exact match in the schema Trie, the corrector
records no revision, returns the SQL unchanged and leaves the structure
unmodified — for any suggestion ranking and any interactive chooser. -/
theorem c10_corrector_sin_revisiones
    (sugiere : String → List String → List String)
    (elige : Revision → List String → Nat)
    (sql : String) (e : Estructura) (tr : Trie)
    (hent : ∀ v, e.entidad = some v → tr.search v = true)
    (hattr : ∀ a ∈ e.atributos_mostrar, tr.search a = true)
    (hcond : ∀ c ∈ e.condiciones, tr.search c.atributo = true) :
    revisionesDe e tr = [] ∧
    revisar_y_sugerir_traduccion sugiere elige sql e tr = (sql, e) := by
  have hrev : revisionesDe e tr = [] := by
    unfold revisionesDe
    rw [List.append_eq_nil, List.append_eq_nil]
    refine ⟨⟨?_, ?_⟩, ?_⟩
    · cases hv : e.entidad with
      | none => rfl
      | some v =>
        show (if v ≠ "" ∧ ¬ tr.search v = true then
          [(⟨"entidad", v, 0⟩ : Revision)] else []) = []
        rw [if_neg]
        rintro ⟨-, hns⟩
        exact hns (hent v hv)
    · apply List.filterMap_eq_nil_iff.mpr
      intro p hp
      rw [if_neg]
      exact fun hns => hns (hattr p.2 (List.snd_mem_of_mem_enum hp))
    · apply List.filterMap_eq_nil_iff.mpr
      intro p hp
      rw [if_neg]
      rintro ⟨-, hns⟩
      exact hns (hcond p.2 (List.snd_mem_of_mem_enum hp))
  refine ⟨hrev, ?_⟩
  unfold revisar_y_sugerir_traduccion
  rw [hrev]
  rfl

/-- C10 witness: the corrector law applied to a concrete valid query. -/
theorem c10_corrector_sin_revisiones_testigo :
    revisionesDe
      ⟨some "muéstrame", some "clientes", [⟨"edad", ">", "30"⟩], ["edad"]⟩
      (insertaTodas ["clientes", "edad"] Trie.nuevo) = [] ∧
    revisar_y_sugerir_traduccion (fun _ _ => []) (fun _ _ => 0)
      "SELECT edad FROM clientes WHERE edad > 30"
      ⟨some "muéstrame", some "clientes", [⟨"edad", ">", "30"⟩], ["edad"]⟩
      (insertaTodas ["clientes", "edad"] Trie.nuevo) =
      ("SELECT edad FROM clientes WHERE edad > 30",
       ⟨some "muéstrame", some "clientes", [⟨"edad", ">", "30"⟩], ["edad"]⟩) :=
  c10_corrector_sin_revisiones (fun _ _ => []) (fun _ _ => 0) _ _ _
    (fun v hv => by
      rw [show v = "clientes" from (Option.some.inj hv).symm]
      decide)
    (by decide) (by decide)

end Correccion
